import Mathlib

/-!
EsoWorld brainfuck interpreter: embedding of `brainfuck/src/main.cpp`.

The three functions of the interpreter core are embedded shallowly:

* `convert_to_tokens` (tokenizer),
* `validate_program` (loop-balance validator),
* `interpret_program` (execution engine), as a step function `step` that
  performs one iteration of the engine's `for` loop, iterated by `run`.

C++ `int` values are mathematical integers (`Int`, or `Nat` for values that
are never negative); token sequences are shorter than `2^31`, so no `int`
arithmetic of the program overflows.  A tape cell (`char`) is the value of
its byte, a natural number below `256`.  Accesses that are undefined
behaviour in C++ (reading a vector out of range, `top`/`pop` on an empty
stack) are the `Fault` results of the embedding.
-/

namespace Brainfuck

/-! ## Data model -/

deriving instance DecidableEq for Except

/-- The `enum Token` of the source. -/
inductive Token where
  | PTR_RIGHT
  | PTR_LEFT
  | INCR
  | DECR
  | OUTP
  | INP
  | LOOP_BEG
  | LOOP_END
  deriving DecidableEq, Repr

/-- The constant `#define PROGRAM_MEM_SIZE 30000`. -/
def PROGRAM_MEM_SIZE : Nat := 30000

/-- The function `wrap_val`; `%` of C++ truncates towards zero (`Int.tmod`). -/
def wrap_val (val lwr_bound upp_bound : Int) : Int :=
  let range := upp_bound - lwr_bound
  let val := (val - lwr_bound).tmod range
  if val < 0 then upp_bound + val else lwr_bound + val

/-! ## Tokenizer -/

/-- The function `convert_to_tokens`.  The second argument is the vector passed
by reference; the result is the returned `bool` together with the contents of
that vector when the function returns (`push_back` appends at the end). -/
def convert_to_tokens : List Char → List Token → Bool × List Token
  | [], tokens => (true, tokens)
  | c :: content, tokens =>
    if c = '>' then convert_to_tokens content (tokens ++ [Token.PTR_RIGHT])
    else if c = '<' then convert_to_tokens content (tokens ++ [Token.PTR_LEFT])
    else if c = '+' then convert_to_tokens content (tokens ++ [Token.INCR])
    else if c = '-' then convert_to_tokens content (tokens ++ [Token.DECR])
    else if c = '.' then convert_to_tokens content (tokens ++ [Token.OUTP])
    else if c = ',' then convert_to_tokens content (tokens ++ [Token.INP])
    else if c = '[' then convert_to_tokens content (tokens ++ [Token.LOOP_BEG])
    else if c = ']' then convert_to_tokens content (tokens ++ [Token.LOOP_END])
    else (false, tokens)

/-! ## Validator -/

/-- The two error messages of `validate_program`, with the number each prints. -/
inductive ValidateError where
  | UnmatchedLoopClose (position : Nat)
  | UnmatchedLoopOpen (count : Int)
  deriving DecidableEq, Repr

/-- The `for` loop of `validate_program`, from index `i` with counter `loops`
over the tokens not yet visited: the counter is updated by the `switch`, then
tested for `loops < 0`.  The result is the counter after the last token. -/
def validate_loop : List Token → Nat → Int → Except ValidateError Int
  | [], _, loops => .ok loops
  | t :: rest, i, loops =>
    let loops :=
      match t with
      | .LOOP_BEG => loops + 1
      | .LOOP_END => loops - 1
      | _ => loops
    if loops < 0 then .error (.UnmatchedLoopClose i)
    else validate_loop rest (i + 1) loops

/-- The function `validate_program`: `.ok ()` is `return true`, an error is
`return false` after the corresponding call of `error`. -/
def validate_program (tokens : List Token) : Except ValidateError Unit :=
  match validate_loop tokens 0 0 with
  | .error e => .error e
  | .ok loops => if loops ≠ 0 then .error (.UnmatchedLoopOpen loops) else .ok ()

/-! ## Execution engine -/

/-- Undefined behaviour the engine can run into. -/
inductive Fault where
  /-- A `top`/`pop` on the empty `loop_beginnings` stack. -/
  | emptyStack
  /-- A read `tokens[i]` with `i` not below `tokens.size()`. -/
  | tokenIndex
  /-- An access `memory[memory_index]` outside the tape. -/
  | memoryIndex
  deriving DecidableEq, Repr

/-- The variables of `interpret_program` between two iterations of its `for`
loop, with the unread part of `std::cin` and the bytes printed so far.  The
head of `loop_beginnings` is the top of the stack. -/
structure State where
  i : Nat
  loop_beginnings : List Nat
  memory : List Nat
  memory_index : Int
  input : List Nat
  output : List Nat
  deriving DecidableEq, Repr

/-- The state before the first iteration: `i = 0`, empty stack, a tape of
`PROGRAM_MEM_SIZE` zero cells, `memory_index = 0`, nothing printed. -/
def init (input : List Nat) : State :=
  { i := 0, loop_beginnings := [], memory := List.replicate PROGRAM_MEM_SIZE 0,
    memory_index := 0, input := input, output := [] }

/-- The read `memory[memory_index]`. -/
def load (s : State) : Except Fault Nat :=
  if 0 ≤ s.memory_index then
    match s.memory.get? s.memory_index.toNat with
    | some c => .ok c
    | none => .error .memoryIndex
  else .error .memoryIndex

/-- The write `memory[memory_index] = v`. -/
def store (s : State) (v : Nat) : Except Fault State :=
  if 0 ≤ s.memory_index then
    match s.memory.get? s.memory_index.toNat with
    | some _ => .ok { s with memory := s.memory.set s.memory_index.toNat v }
    | none => .error .memoryIndex
  else .error .memoryIndex

/-- The skip-mode loop `while (loops != 0 && i < tokens.size())` of case
`LOOP_BEG`: each iteration increments `i`, reads `tokens[i]` and updates
`loops`.  The result is the value of `i` when the loop is left.  The first
argument bounds the number of iterations and is `tokens.size() - i` at the
call: `i` grows by one in each iteration, so when the bound is used up the
condition `i < tokens.size()` is false and the loop is left. -/
def skip_loop (tokens : List Token) : Nat → Int → Nat → Except Fault Nat
  | 0, _, i => .ok i
  | n + 1, loops, i =>
    if loops ≠ 0 ∧ i < tokens.length then
      match tokens[i + 1]? with
      | none => .error .tokenIndex
      | some t =>
        let loops := if t = Token.LOOP_BEG then loops + 1 else loops
        let loops := if t = Token.LOOP_END then loops - 1 else loops
        skip_loop tokens n loops (i + 1)
    else .ok i

/-- One iteration of the `for` loop of `interpret_program`: the `switch` on
`tokens[i]` followed by the `i++` of the loop header. -/
def step (tokens : List Token) (s : State) : Except Fault State :=
  match tokens[s.i]? with
  | none => .error .tokenIndex
  | some .PTR_RIGHT =>
    .ok { s with memory_index := wrap_val (s.memory_index + 1) 0 PROGRAM_MEM_SIZE,
                 i := s.i + 1 }
  | some .PTR_LEFT =>
    .ok { s with memory_index := wrap_val (s.memory_index - 1) 0 PROGRAM_MEM_SIZE,
                 i := s.i + 1 }
  | some .INCR => do
    let c ← load s
    let s ← store s ((c + 1) % 256)
    pure { s with i := s.i + 1 }
  | some .DECR => do
    let c ← load s
    let s ← store s ((c + 255) % 256)
    pure { s with i := s.i + 1 }
  | some .OUTP => do
    let c ← load s
    pure { s with output := s.output ++ [c], i := s.i + 1 }
  | some .INP => do
    let _ ← load s
    match s.input with
    | [] => pure { s with i := s.i + 1 }
    | b :: rest =>
      let s ← store s (b % 256)
      pure { s with input := rest, i := s.i + 1 }
  | some .LOOP_BEG => do
    let c ← load s
    if c = 0 then
      let j ← skip_loop tokens (tokens.length - s.i) 1 s.i
      pure { s with i := j + 1 }
    else
      pure { s with loop_beginnings := s.i :: s.loop_beginnings, i := s.i + 1 }
  | some .LOOP_END =>
    match s.loop_beginnings with
    | [] => .error .emptyStack
    | top :: rest => do
      let index : Int := (top : Int) - 1
      let c ← load s
      if c ≠ 0 then
        pure { s with loop_beginnings := rest, i := (index + 1).toNat }
      else
        pure { s with loop_beginnings := rest, i := s.i + 1 }

/-- At most `n` iterations of the `for` loop of `interpret_program`, which is
left when `i < tokens.size()` fails. -/
def run (tokens : List Token) : Nat → State → Except Fault State
  | 0, s => .ok s
  | n + 1, s =>
    if s.i < tokens.length then
      match step tokens s with
      | .ok s' => run tokens n s'
      | .error e => .error e
    else .ok s

/-- The function `interpret_program`, given the contents of `std::cin` and a
bound on the number of loop iterations. -/
def interpret_program (tokens : List Token) (input : List Nat) (n : Nat) :
    Except Fault State :=
  run tokens n (init input)

/-- The states `interpret_program` passes through on `tokens` and `input`. -/
def Reachable (tokens : List Token) (input : List Nat) (s : State) : Prop :=
  ∃ n, interpret_program tokens input n = .ok s

/-- The loop of `interpret_program` has been left. -/
def Halted (tokens : List Token) (s : State) : Prop :=
  ¬ s.i < tokens.length

open Token

/-! ## Loop structure, in the words of the specification -/

/-- What a token adds to the running open/close counter: `+1` for a
`LoopOpen`, `-1` for a `LoopClose`, nothing otherwise. -/
def delta : Token → Int
  | LOOP_BEG => 1
  | LOOP_END => -1
  | _ => 0

/-- The running counter after reading all of `l` from left to right, starting
at `0`; the counter after position `k` of `tokens` is
`counter (tokens.take (k + 1))`. -/
def counter : List Token → Int
  | [] => 0
  | t :: l => delta t + counter l

/-- Started at `d`, the running counter is non-negative before and after
every token of the list. -/
def NonNegFrom : Int → List Token → Prop
  | d, [] => 0 ≤ d
  | d, t :: l => 0 ≤ d ∧ NonNegFrom (d + delta t) l

/-- Balanced token sequences: the empty sequence, a token that is no loop
boundary in front of a balanced sequence, and a balanced body between a
`LoopOpen` and its `LoopClose` in front of a balanced sequence. -/
inductive Balanced : List Token → Prop
  | nil : Balanced []
  | plain (t : Token) (l : List Token) :
      t ≠ LOOP_BEG → t ≠ LOOP_END → Balanced l → Balanced (t :: l)
  | loop (body rest : List Token) :
      Balanced body → Balanced rest → Balanced (LOOP_BEG :: (body ++ LOOP_END :: rest))

/-- The tokens at positions `a, a + 1, ..., b - 1`. -/
def slice (l : List Token) (a b : Nat) : List Token :=
  (l.take b).drop a

/-- The `LoopClose` at position `j` matches the `LoopOpen` at position `i`:
`i` is before `j` and the tokens strictly between them are balanced. -/
def Matching (tokens : List Token) (i j : Nat) : Prop :=
  i < j ∧ tokens[i]? = some LOOP_BEG ∧ tokens[j]? = some LOOP_END ∧
    Balanced (slice tokens (i + 1) j)

/-- The stack `st` (top first) lists the loops that are open at position `i`:
each entry is the position of a `LoopOpen`, the tokens from the top entry up
to `i` are balanced, and so are the tokens between two neighbouring entries
and those before the bottom entry. -/
def StackInv (tokens : List Token) : Nat → List Nat → Prop
  | i, [] => Balanced (slice tokens 0 i)
  | i, p :: st =>
    p < i ∧ tokens[p]? = some LOOP_BEG ∧ Balanced (slice tokens (p + 1) i) ∧
      StackInv tokens p st

/-- The symbol-to-instruction table of the specification. -/
def symbolToken : Char → Option Token
  | '>' => some PTR_RIGHT
  | '<' => some PTR_LEFT
  | '+' => some INCR
  | '-' => some DECR
  | '.' => some OUTP
  | ',' => some INP
  | '[' => some LOOP_BEG
  | ']' => some LOOP_END
  | _ => none

/-- The alphabet of the language: the eight recognised symbols. -/
def alphabet : List Char := ['>', '<', '+', '-', '.', ',', '[', ']']

/-- The invariant of the engine on a validated program: the tape has its
`PROGRAM_MEM_SIZE` cells, the data pointer is inside it, the cursor is not
past the end and the stack lists the loops open at the cursor. -/
structure Inv (tokens : List Token) (s : State) : Prop where
  mem_length : s.memory.length = PROGRAM_MEM_SIZE
  index_nonneg : 0 ≤ s.memory_index
  index_lt : s.memory_index < PROGRAM_MEM_SIZE
  cursor_le : s.i ≤ tokens.length
  stack : StackInv tokens s.i s.loop_beginnings

/-! ## Example programs and states -/

/-- The program `[+]`: a loop that is skipped on a fresh tape. -/
def skippedLoop : List Token := [LOOP_BEG, INCR, LOOP_END]

/-- The program `[[+]]`: two nested loops, skipped on a fresh tape. -/
def skippedNest : List Token := [LOOP_BEG, LOOP_BEG, INCR, LOOP_END, LOOP_END]

/-- The program `+[-]`. -/
def countdown : List Token := [INCR, LOOP_BEG, DECR, LOOP_END]

/-- The state of `countdown` after three iterations on empty input: the
cursor is on the `LoopClose`, the loop entered at position `1` is on the
stack and cell `0` has been incremented and decremented. -/
def countdownAtClose : State :=
  { i := 3, loop_beginnings := [1],
    memory := ((List.replicate PROGRAM_MEM_SIZE 0).set 0 1).set 0 0,
    memory_index := 0, input := [], output := [] }

/-! ## Tape invariant and execution counts -/

/-- The part of the invariant that holds on every program, validated or not:
the tape has its `PROGRAM_MEM_SIZE` cells, each holding a byte, and the data
pointer is inside the tape. -/
structure MemInv (s : State) : Prop where
  mem_length : s.memory.length = PROGRAM_MEM_SIZE
  index_nonneg : 0 ≤ s.memory_index
  index_lt : s.memory_index < PROGRAM_MEM_SIZE
  cells_lt : ∀ c ∈ s.memory, c < 256

/-- The states in which the iterations made by `run tokens n s` start, in the
order in which they are made. -/
def visited (tokens : List Token) : Nat → State → List State
  | 0, _ => []
  | n + 1, s =>
    if s.i < tokens.length then
      match step tokens s with
      | .ok s' => s :: visited tokens n s'
      | .error _ => [s]
    else []

/-- How many of the iterations made by `run tokens n s` execute the
instruction `t`. -/
def executions (tokens : List Token) (t : Token) (n : Nat) (s : State) : Nat :=
  ((visited tokens n s).filter fun v => decide (tokens[v.i]? = some t)).length

/-- The iteration started in `s` pushes onto the loop-entry stack: it ends
without fault in a state whose `loop_beginnings` has one entry more than
that of `s`. -/
def pushesAt (tokens : List Token) (s : State) : Bool :=
  match step tokens s with
  | .ok s' => decide (s'.loop_beginnings.length = s.loop_beginnings.length + 1)
  | .error _ => false

/-- How many of the iterations made by `run tokens n s` push onto the
loop-entry stack, that is, leave it one entry longer. -/
def pushCount (tokens : List Token) (n : Nat) (s : State) : Nat :=
  ((visited tokens n s).filter (pushesAt tokens)).length

/-- The state before the first iteration, but with the value `v` in the
current cell. -/
def initWithCell (v : Nat) (input : List Nat) : State :=
  { init input with memory := (init input).memory.set 0 v }

/-- The states `s` and `s'` differ at most in the cursor and in the cells of
the tape. -/
def SameFrame (s s' : State) : Prop :=
  s'.loop_beginnings = s.loop_beginnings ∧ s'.memory_index = s.memory_index ∧
    s'.input = s.input ∧ s'.output = s.output

/-- The program of `n` `Increment` instructions followed by the loop `[-]`. -/
def countdownFrom (n : Nat) : List Token :=
  List.replicate n INCR ++ [LOOP_BEG, DECR, LOOP_END]

/-! ## Reference interpreter with a jump table, in the words of the specification -/

/-- The open/close pairs of a token sequence, found in one pass from left to
right that keeps the positions of the `LoopOpen`s not yet closed: each
`LoopClose` is paired with the last of them.  The arguments are the tokens
still to read, the position of the first of them and the open positions. -/
def jump_pairs : List Token → Nat → List Nat → List (Nat × Nat)
  | [], _, _ => []
  | t :: rest, i, opens =>
    match t, opens with
    | LOOP_BEG, opens => jump_pairs rest (i + 1) (i :: opens)
    | LOOP_END, p :: opens => (p, i) :: jump_pairs rest (i + 1) opens
    | LOOP_END, [] => jump_pairs rest (i + 1) []
    | _, opens => jump_pairs rest (i + 1) opens

/-- The precomputed jump table of a token sequence: its pairs
`(open, close)`. -/
def jump_table (tokens : List Token) : List (Nat × Nat) :=
  jump_pairs tokens 0 []

/-- The position of the `LoopClose` the table gives for the `LoopOpen` at `i`. -/
def close_of (table : List (Nat × Nat)) (i : Nat) : Option Nat :=
  (table.find? fun e => decide (e.1 = i)).map Prod.snd

/-- The position of the `LoopOpen` the table gives for the `LoopClose` at `j`. -/
def open_of (table : List (Nat × Nat)) (j : Nat) : Option Nat :=
  (table.find? fun e => decide (e.2 = j)).map Prod.fst

/-- One iteration of the reference interpreter.  It has no stack: the field
`loop_beginnings` of the state is neither read nor written.  A `LoopOpen` on
a zero cell jumps just behind the `LoopClose` of the table, a `LoopClose` on
a cell that is not zero jumps to the first instruction behind the `LoopOpen`
of the table, and every other instruction is executed as by the engine. -/
def ref_step (tokens : List Token) (table : List (Nat × Nat)) (s : State) :
    Except Fault State :=
  match tokens[s.i]? with
  | some .LOOP_BEG => do
    let c ← load s
    if c = 0 then
      match close_of table s.i with
      | some j => pure { s with i := j + 1 }
      | none => .error .tokenIndex
    else
      pure { s with i := s.i + 1 }
  | some .LOOP_END => do
    let c ← load s
    if c ≠ 0 then
      match open_of table s.i with
      | some p => pure { s with i := p + 1 }
      | none => .error .tokenIndex
    else
      pure { s with i := s.i + 1 }
  | _ => step tokens s

/-- At most `n` iterations of the reference interpreter, which stops when the
cursor is at the end of the token sequence. -/
def ref_run (tokens : List Token) (table : List (Nat × Nat)) : Nat → State → Except Fault State
  | 0, s => .ok s
  | n + 1, s =>
    if s.i < tokens.length then
      match ref_step tokens table s with
      | .ok s' => ref_run tokens table n s'
      | .error e => .error e
    else .ok s

/-- The reference interpreter on a fresh tape, with the jump table of the
token sequence. -/
def ref_interpret (tokens : List Token) (input : List Nat) (n : Nat) : Except Fault State :=
  ref_run tokens (jump_table tokens) n (init input)

/-- Same tape, data pointer, remaining input and output. -/
def SameData (e r : State) : Prop :=
  e.memory = r.memory ∧ e.memory_index = r.memory_index ∧ e.input = r.input ∧
    e.output = r.output

/-- Same cursor, tape, data pointer, remaining input and output. -/
def SameObs (e r : State) : Prop :=
  e.i = r.i ∧ SameData e r

/-- The engine state `e` corresponds to the state `r` of the reference
interpreter: `e` satisfies the invariant of the engine and the two states
agree on everything but the stack. -/
def Corr (tokens : List Token) (e r : State) : Prop :=
  Inv tokens e ∧ SameObs e r

/-- The engine state `e` is between two corresponding states: a `LoopClose`
has sent it back to the `LoopOpen` of a loop whose body the reference
interpreter in state `r` has already entered again. -/
def Mid (tokens : List Token) (e r : State) : Prop :=
  Inv tokens e ∧ SameData e r ∧ tokens[e.i]? = some LOOP_BEG ∧ r.i = e.i + 1 ∧
    ∃ c, load e = .ok c ∧ c ≠ 0

/-! ## Facts about the counter -/

theorem counter_append (a b : List Token) : counter (a ++ b) = counter a + counter b := by
  induction a with
  | nil => simp [counter]
  | cons t a ih => simp [counter, ih]; ring

theorem counter_eq_count (l : List Token) :
    counter l = (l.count LOOP_BEG : Int) - (l.count LOOP_END : Int) := by
  induction l with
  | nil => simp [counter]
  | cons t l ih =>
    cases t <;> simp [counter, delta, ih, List.count_cons] <;> ring

theorem NonNegFrom.nonneg {d : Int} {l : List Token} (h : NonNegFrom d l) : 0 ≤ d := by
  cases l with
  | nil => exact h
  | cons t l => exact h.1

theorem nonNegFrom_iff (d : Int) (l : List Token) :
    NonNegFrom d l ↔ ∀ k, 0 ≤ d + counter (l.take k) := by
  induction l generalizing d with
  | nil => simp [NonNegFrom, counter]
  | cons t l ih =>
    constructor
    · rintro ⟨h0, h⟩ k
      cases k with
      | zero => simpa [counter] using h0
      | succ k =>
        have := (ih _).1 h k
        simp only [List.take_succ_cons, counter]
        omega
    · intro h
      refine ⟨by simpa [counter] using h 0, (ih _).2 fun k => ?_⟩
      have := h (k + 1)
      simp only [List.take_succ_cons, counter] at this
      omega

theorem nonNegFrom_append (d : Int) (a b : List Token) :
    NonNegFrom d (a ++ b) ↔ NonNegFrom d a ∧ NonNegFrom (d + counter a) b := by
  induction a generalizing d with
  | nil =>
    simp only [List.nil_append, NonNegFrom, counter, add_zero]
    exact ⟨fun h => ⟨h.nonneg, h⟩, fun h => h.2⟩
  | cons t a ih =>
    show (0 ≤ d ∧ NonNegFrom (d + delta t) (a ++ b)) ↔
      (0 ≤ d ∧ NonNegFrom (d + delta t) a) ∧ NonNegFrom (d + counter (t :: a)) b
    rw [ih, and_assoc, counter, add_assoc]

theorem NonNegFrom.end_nonneg {d : Int} {l : List Token} (h : NonNegFrom d l) :
    0 ≤ d + counter l := by
  have := (nonNegFrom_iff d l).1 h l.length
  simpa using this

theorem NonNegFrom.mono {d e : Int} {l : List Token} (h : NonNegFrom d l) (hde : d ≤ e) :
    NonNegFrom e l := by
  rw [nonNegFrom_iff] at h ⊢
  intro k
  have := h k
  omega

/-- A sequence whose counter drops below zero splits at the first token that
makes it negative, and that token is a `LoopClose`. -/
theorem exists_first_negative {d : Int} {l : List Token} (hd : 0 ≤ d)
    (h : ¬ NonNegFrom d l) :
    ∃ pre post, l = pre ++ LOOP_END :: post ∧ NonNegFrom d pre ∧ d + counter pre = 0 := by
  induction l generalizing d with
  | nil => exact absurd hd h
  | cons t l ih =>
    by_cases ht : 0 ≤ d + delta t
    · have hl : ¬ NonNegFrom (d + delta t) l := fun hl => h ⟨hd, hl⟩
      obtain ⟨pre, post, rfl, hpre, hc⟩ := ih ht hl
      exact ⟨t :: pre, post, rfl, ⟨hd, hpre⟩, by simp only [counter]; omega⟩
    · refine ⟨[], l, ?_, hd, ?_⟩
      · cases t <;> simp [delta] at ht ⊢ <;> omega
      · cases t <;> simp [delta, counter] at ht ⊢ <;> omega

/-! ## Facts about balanced sequences and slices -/

theorem Balanced.append {a b : List Token} (ha : Balanced a) (hb : Balanced b) :
    Balanced (a ++ b) := by
  induction ha with
  | nil => exact hb
  | plain t l h1 h2 _ ih => exact Balanced.plain t _ h1 h2 ih
  | loop body rest hbody _ _ ih =>
    have := Balanced.loop body (rest ++ b) hbody ih
    simpa using this

theorem Balanced.single {t : Token} (h1 : t ≠ LOOP_BEG) (h2 : t ≠ LOOP_END) : Balanced [t] :=
  Balanced.plain t [] h1 h2 Balanced.nil

theorem Balanced.wrap {body : List Token} (h : Balanced body) :
    Balanced (LOOP_BEG :: (body ++ [LOOP_END])) :=
  Balanced.loop body [] h Balanced.nil

theorem Balanced.counter_eq_zero {l : List Token} (h : Balanced l) : counter l = 0 := by
  induction h with
  | nil => rfl
  | plain t l h1 h2 _ ih => cases t <;> simp_all [counter, delta]
  | loop body rest _ _ ih1 ih2 => simp [counter, counter_append, delta, ih1, ih2]

theorem Balanced.nonNegFrom {l : List Token} (h : Balanced l) {d : Int} (hd : 0 ≤ d) :
    NonNegFrom d l := by
  induction h generalizing d with
  | nil => exact hd
  | plain t l h1 h2 _ ih =>
    refine ⟨hd, ih ?_⟩
    cases t <;> simp_all [delta]
  | loop body rest hbody _ ih1 ih2 =>
    refine ⟨hd, (nonNegFrom_append _ _ _).2 ⟨ih1 (by simp [delta]; omega), ?_⟩⟩
    rw [hbody.counter_eq_zero]
    refine ⟨by simp [delta]; omega, ih2 ?_⟩
    simp [delta]
    omega

theorem slice_self (l : List Token) (a : Nat) : slice l a a = [] := by
  simp [slice, List.drop_eq_nil_iff]

theorem slice_zero_length (l : List Token) : slice l 0 l.length = l := by
  simp [slice]

theorem slice_zero (l : List Token) (b : Nat) : slice l 0 b = l.take b := by
  simp [slice]

theorem slice_succ {l : List Token} {i : Nat} {t : Token} (h : l[i]? = some t) :
    slice l i (i + 1) = [t] := by
  have hi : i < l.length := (List.getElem?_eq_some.1 h).1
  rw [slice, List.take_succ, h]
  exact List.drop_left' (by simp; omega)

theorem slice_append_slice (l : List Token) {a b c : Nat} (hab : a ≤ b) (hbc : b ≤ c)
    (hc : c ≤ l.length) : slice l a b ++ slice l b c = slice l a c := by
  have h1 : l.take c = l.take b ++ (l.take c).drop b := by
    have := List.take_append_drop b (l.take c)
    rw [List.take_take, Nat.min_eq_left hbc] at this
    exact this.symm
  unfold slice
  conv_rhs => rw [h1]
  rw [List.drop_append_of_le_length (by simp; omega)]

theorem slice_drop (l : List Token) (a n : Nat) :
    slice l a (a + n) = (l.drop a).take n := by
  simp [slice, List.drop_take]

theorem lt_length_of_getElem? {l : List Token} {i : Nat} {t : Token} (h : l[i]? = some t) :
    i < l.length :=
  (List.getElem?_eq_some.1 h).1

/-- The tokens from an open to a later position, cut at the matching close. -/
theorem slice_loop {tokens : List Token} {p j : Nat} (hpj : p < j)
    (hp : tokens[p]? = some LOOP_BEG) (hj : tokens[j]? = some LOOP_END) :
    slice tokens p (j + 1) = LOOP_BEG :: (slice tokens (p + 1) j ++ [LOOP_END]) := by
  have hjl := lt_length_of_getElem? hj
  rw [← slice_append_slice tokens (show p ≤ p + 1 by omega) (show p + 1 ≤ j + 1 by omega) hjl,
    ← slice_append_slice tokens (show p + 1 ≤ j by omega) (show j ≤ j + 1 by omega) hjl,
    slice_succ hp, slice_succ hj]
  rfl

theorem balanced_slice_loop {tokens : List Token} {p j : Nat} (h : Matching tokens p j) :
    Balanced (slice tokens p (j + 1)) := by
  obtain ⟨hpj, hp, hj, hb⟩ := h
  rw [slice_loop hpj hp hj]
  exact hb.wrap

/-! ## Facts about the stack of open loops -/

theorem StackInv.extend {tokens : List Token} {i k : Nat} {st : List Nat}
    (h : StackInv tokens i st) (hik : i ≤ k) (hk : k ≤ tokens.length)
    (hb : Balanced (slice tokens i k)) : StackInv tokens k st := by
  cases st with
  | nil =>
    have := Balanced.append h hb
    rwa [slice_append_slice tokens (Nat.zero_le _) hik hk] at this
  | cons p st =>
    obtain ⟨hpi, hp, hbal, hst⟩ := h
    refine ⟨by omega, hp, ?_, hst⟩
    have := Balanced.append hbal hb
    rwa [slice_append_slice tokens (by omega) hik hk] at this

theorem StackInv.plain {tokens : List Token} {i : Nat} {st : List Nat} {t : Token}
    (h : StackInv tokens i st) (ht : tokens[i]? = some t) (h1 : t ≠ LOOP_BEG)
    (h2 : t ≠ LOOP_END) : StackInv tokens (i + 1) st :=
  h.extend (Nat.le_succ i) (lt_length_of_getElem? ht) (by
    rw [slice_succ ht]; exact Balanced.single h1 h2)

theorem StackInv.push {tokens : List Token} {i : Nat} {st : List Nat}
    (h : StackInv tokens i st) (ht : tokens[i]? = some LOOP_BEG) :
    StackInv tokens (i + 1) (i :: st) :=
  ⟨Nat.lt_succ_self i, ht, by rw [slice_self]; exact Balanced.nil, h⟩

theorem StackInv.top_matching {tokens : List Token} {j p : Nat} {st : List Nat}
    (h : StackInv tokens j (p :: st)) (ht : tokens[j]? = some LOOP_END) :
    Matching tokens p j :=
  ⟨h.1, h.2.1, ht, h.2.2.1⟩

theorem StackInv.skip {tokens : List Token} {i j : Nat} {st : List Nat}
    (h : StackInv tokens i st) (hm : Matching tokens i j) :
    StackInv tokens (j + 1) st :=
  h.extend (by have := hm.1; omega) (lt_length_of_getElem? hm.2.2.1) (balanced_slice_loop hm)

theorem StackInv.pop {tokens : List Token} {j p : Nat} {st : List Nat}
    (h : StackInv tokens j (p :: st)) (ht : tokens[j]? = some LOOP_END) :
    StackInv tokens (j + 1) st :=
  h.2.2.2.skip (h.top_matching ht)

theorem StackInv.lt_of_mem {tokens : List Token} {i p : Nat} {st : List Nat}
    (h : StackInv tokens i st) (hp : p ∈ st) : p < i := by
  induction st generalizing i with
  | nil => cases hp
  | cons q st ih =>
    rcases List.mem_cons.1 hp with rfl | hp
    · exact h.1
    · exact lt_trans (ih h.2.2.2 hp) h.1

theorem StackInv.nodup {tokens : List Token} {i : Nat} {st : List Nat}
    (h : StackInv tokens i st) : st.Nodup := by
  induction st generalizing i with
  | nil => exact List.nodup_nil
  | cons q st ih =>
    refine List.nodup_cons.2 ⟨fun hq => ?_, ih h.2.2.2⟩
    exact lt_irrefl _ (h.2.2.2.lt_of_mem hq)

theorem take_succ_of_getElem? {l : List Token} {i : Nat} {t : Token} (h : l[i]? = some t) :
    l.take (i + 1) = l.take i ++ [t] := by
  rw [List.take_succ, h]; rfl

/-- Reading a prefix whose counter never goes negative leaves a stack of open
loops as long as the counter, and every `LoopOpen` read so far is on that
stack or has its matching `LoopClose` in the prefix. -/
theorem exists_stack {tokens : List Token} (hn : NonNegFrom 0 tokens) (i : Nat)
    (hi : i ≤ tokens.length) :
    ∃ st, StackInv tokens i st ∧ (st.length : Int) = counter (tokens.take i) ∧
      ∀ p, p < i → tokens[p]? = some LOOP_BEG → p ∈ st ∨ ∃ j, j < i ∧ Matching tokens p j := by
  induction i with
  | zero =>
    refine ⟨[], ?_, by simp [counter], fun p hp => absurd hp (Nat.not_lt_zero p)⟩
    show Balanced (slice tokens 0 0)
    rw [slice_self]; exact Balanced.nil
  | succ i ih =>
    obtain ⟨st, hst, hlen, hopen⟩ := ih (by omega)
    obtain ⟨t, ht⟩ : ∃ t, tokens[i]? = some t := ⟨tokens[i], List.getElem?_eq_getElem (by omega)⟩
    have hcnt : counter (tokens.take (i + 1)) = counter (tokens.take i) + delta t := by
      rw [take_succ_of_getElem? ht, counter_append]; simp [counter]
    have hge : 0 ≤ counter (tokens.take (i + 1)) := by
      simpa using (nonNegFrom_iff 0 tokens).1 hn (i + 1)
    by_cases h1 : t = LOOP_BEG
    · subst h1
      refine ⟨i :: st, hst.push ht, ?_, fun p hp hpo => ?_⟩
      · rw [hcnt, ← hlen]; simp [delta]
      · rcases Nat.lt_succ_iff_lt_or_eq.1 hp with hlt | rfl
        · rcases hopen p hlt hpo with hmem | ⟨j, hj, hm⟩
          · exact Or.inl (List.mem_cons_of_mem _ hmem)
          · exact Or.inr ⟨j, by omega, hm⟩
        · exact Or.inl (List.mem_cons_self _ _)
    by_cases h2 : t = LOOP_END
    · subst h2
      cases st with
      | nil =>
        exfalso
        rw [hcnt, ← hlen] at hge
        simp [delta] at hge
      | cons q st =>
        refine ⟨st, hst.pop ht, ?_, fun p hp hpo => ?_⟩
        · rw [hcnt, ← hlen]; simp [delta]
        · rcases Nat.lt_succ_iff_lt_or_eq.1 hp with hlt | rfl
          · rcases hopen p hlt hpo with hmem | ⟨j, hj, hm⟩
            · rcases List.mem_cons.1 hmem with rfl | hmem
              · exact Or.inr ⟨i, Nat.lt_succ_self i, hst.top_matching ht⟩
              · exact Or.inl hmem
            · exact Or.inr ⟨j, by omega, hm⟩
          · rw [ht] at hpo; cases hpo
    · refine ⟨st, hst.plain ht h1 h2, ?_, fun p hp hpo => ?_⟩
      · rw [hcnt, ← hlen]; cases t <;> simp_all [delta]
      · rcases Nat.lt_succ_iff_lt_or_eq.1 hp with hlt | rfl
        · rcases hopen p hlt hpo with hmem | ⟨j, hj, hm⟩
          · exact Or.inl hmem
          · exact Or.inr ⟨j, by omega, hm⟩
        · rw [ht] at hpo; exact absurd (Option.some.inj hpo) h1

theorem StackInv.open_of_mem {tokens : List Token} {i p : Nat} {st : List Nat}
    (h : StackInv tokens i st) (hp : p ∈ st) : tokens[p]? = some LOOP_BEG := by
  induction st generalizing i with
  | nil => cases hp
  | cons q st ih =>
    rcases List.mem_cons.1 hp with rfl | hp
    · exact h.2.1
    · exact ih h.2.2.2 hp

theorem StackInv.nonNeg_of_mem {tokens : List Token} {k p : Nat} {st : List Nat}
    (h : StackInv tokens k st) (hk : k ≤ tokens.length) (hp : p ∈ st) :
    NonNegFrom 0 (slice tokens (p + 1) k) := by
  induction st generalizing k with
  | nil => cases hp
  | cons q st ih =>
    obtain ⟨hqk, hq, hbal, hst⟩ := h
    rcases List.mem_cons.1 hp with rfl | hp
    · exact hbal.nonNegFrom le_rfl
    · have hpq : p < q := hst.lt_of_mem hp
      have hA := ih hst (by omega) hp
      rw [← slice_append_slice tokens (show p + 1 ≤ q by omega) (show q ≤ k by omega) hk,
        ← slice_append_slice tokens (show q ≤ q + 1 by omega) (show q + 1 ≤ k by omega) hk,
        slice_succ hq, nonNegFrom_append]
      refine ⟨hA, ?_⟩
      have := hA.end_nonneg
      exact ⟨by omega, hbal.nonNegFrom (by simp [delta]; omega)⟩

/-- No close matches an open when the counter stays non-negative from just
after the open up to a position beyond that close. -/
theorem not_matching_of_nonNeg {tokens : List Token} {p j k : Nat}
    (hn : NonNegFrom 0 (slice tokens (p + 1) k)) (hm : Matching tokens p j) (hjk : j < k)
    (hk : k ≤ tokens.length) : False := by
  obtain ⟨hpj, -, hj, hbal⟩ := hm
  rw [← slice_append_slice tokens (show p + 1 ≤ j by omega) (show j ≤ k by omega) hk,
    ← slice_append_slice tokens (show j ≤ j + 1 by omega) (show j + 1 ≤ k by omega) hk,
    slice_succ hj, nonNegFrom_append, hbal.counter_eq_zero] at hn
  have := hn.2.2.nonneg
  simp [delta] at this

theorem Matching.close_unique {tokens : List Token} {i j j' : Nat}
    (h : Matching tokens i j) (h' : Matching tokens i j') : j = j' := by
  rcases Nat.lt_trichotomy j j' with hlt | heq | hgt
  · exact (not_matching_of_nonNeg (h'.2.2.2.nonNegFrom le_rfl) h hlt
      (Nat.le_of_lt (lt_length_of_getElem? h'.2.2.1))).elim
  · exact heq
  · exact (not_matching_of_nonNeg (h.2.2.2.nonNegFrom le_rfl) h' hgt
      (Nat.le_of_lt (lt_length_of_getElem? h.2.2.1))).elim

theorem Matching.open_lt_absurd {tokens : List Token} {i i' j : Nat}
    (h : Matching tokens i j) (h' : Matching tokens i' j) (hlt : i < i') : False := by
  obtain ⟨-, -, hj, hbal⟩ := h
  obtain ⟨hi'j, hi', -, hbal'⟩ := h'
  have hjl := Nat.le_of_lt (lt_length_of_getElem? hj)
  have hc := hbal.counter_eq_zero
  have hn := hbal.nonNegFrom (le_refl (0 : Int))
  rw [← slice_append_slice tokens (show i + 1 ≤ i' by omega) (show i' ≤ j by omega) hjl,
    ← slice_append_slice tokens (show i' ≤ i' + 1 by omega) (show i' + 1 ≤ j by omega) hjl,
    slice_succ hi'] at hc hn
  have hA := ((nonNegFrom_append _ _ _).1 hn).1.end_nonneg
  rw [counter_append, counter_append, hbal'.counter_eq_zero] at hc
  simp [counter, delta] at hc
  omega

theorem Matching.open_unique {tokens : List Token} {i i' j : Nat}
    (h : Matching tokens i j) (h' : Matching tokens i' j) : i = i' := by
  rcases Nat.lt_trichotomy i i' with hlt | heq | hgt
  · exact (h.open_lt_absurd h' hlt).elim
  · exact heq
  · exact (h'.open_lt_absurd h hgt).elim

/-! ## Facts about `validate_program` -/

theorem validate_loop_cons (t : Token) (rest : List Token) (i : Nat) (c : Int) :
    validate_loop (t :: rest) i c =
      if c + delta t < 0 then .error (.UnmatchedLoopClose i)
      else validate_loop rest (i + 1) (c + delta t) := by
  cases t <;> simp [validate_loop, delta, sub_eq_add_neg]

theorem validate_loop_ok {l : List Token} {c : Int} (i : Nat) (h : NonNegFrom c l) :
    validate_loop l i c = .ok (c + counter l) := by
  induction l generalizing i c with
  | nil => simp [validate_loop, counter]
  | cons t l ih =>
    rw [validate_loop_cons, if_neg (not_lt.2 h.2.nonneg), ih _ h.2]
    simp [counter, add_assoc]

theorem validate_loop_error {pre : List Token} {c : Int} (i : Nat) (post : List Token)
    (h : NonNegFrom c pre) (hc : c + counter pre = 0) :
    validate_loop (pre ++ LOOP_END :: post) i c =
      .error (.UnmatchedLoopClose (i + pre.length)) := by
  induction pre generalizing i c with
  | nil =>
    simp only [counter, add_zero] at hc
    simp [validate_loop_cons, delta, hc]
  | cons t pre ih =>
    rw [List.cons_append, validate_loop_cons, if_neg (not_lt.2 h.2.nonneg),
      ih _ h.2 (by simp only [counter] at hc; omega)]
    simp only [List.length_cons]
    congr 2
    omega

theorem nonNegFrom_zero_iff_positions (tokens : List Token) :
    NonNegFrom 0 tokens ↔ ∀ k, k < tokens.length → 0 ≤ counter (tokens.take (k + 1)) := by
  rw [nonNegFrom_iff]
  constructor
  · intro h k _
    simpa using h (k + 1)
  · intro h k
    rw [zero_add]
    rcases Nat.eq_zero_or_pos k with rfl | hk
    · simp [counter]
    · by_cases hlt : k - 1 < tokens.length
      · have := h (k - 1) hlt
        rwa [Nat.sub_add_cancel hk] at this
      · rw [List.take_of_length_le (by omega)]
        rcases Nat.eq_zero_or_pos tokens.length with h0 | hpos
        · rw [List.length_eq_zero.1 h0]; simp [counter]
        · have := h (tokens.length - 1) (by omega)
          rwa [Nat.sub_add_cancel hpos, List.take_length] at this

theorem validate_program_of_nonNeg {tokens : List Token} (h : NonNegFrom 0 tokens) :
    validate_program tokens =
      if counter tokens ≠ 0 then .error (.UnmatchedLoopOpen (counter tokens)) else .ok () := by
  simp [validate_program, validate_loop_ok 0 h]

theorem validate_program_of_split {pre : List Token} (post : List Token)
    (h : NonNegFrom 0 pre) (hc : counter pre = 0) :
    validate_program (pre ++ LOOP_END :: post) = .error (.UnmatchedLoopClose pre.length) := by
  simp [validate_program, validate_loop_error 0 post h (by omega)]

theorem nonNegFrom_of_validate {tokens : List Token} (h : validate_program tokens = .ok ()) :
    NonNegFrom 0 tokens ∧ counter tokens = 0 := by
  by_cases hn : NonNegFrom 0 tokens
  · refine ⟨hn, ?_⟩
    rw [validate_program_of_nonNeg hn] at h
    by_contra hc
    simp [hc] at h
  · obtain ⟨pre, post, rfl, hpre, hc⟩ := exists_first_negative le_rfl hn
    rw [validate_program_of_split post hpre (by omega)] at h
    cases h

/-- C2: `validate_program` succeeds exactly when the running counter (`+1` on
`LoopOpen`, `-1` on `LoopClose`, starting at `0`) is non-negative after every
position and zero after the last one. -/
theorem validate_program_ok_iff (tokens : List Token) :
    validate_program tokens = .ok () ↔
      (∀ k, k < tokens.length → 0 ≤ counter (tokens.take (k + 1))) ∧ counter tokens = 0 := by
  rw [← nonNegFrom_zero_iff_positions]
  constructor
  · exact nonNegFrom_of_validate
  · rintro ⟨hn, hc⟩
    rw [validate_program_of_nonNeg hn]
    simp [hc]

/-- C6: when some prefix holds more `LoopClose` than `LoopOpen` tokens,
`validate_program` fails with the unmatched-close error; the position `i` it
reports holds a `LoopClose`, is the first position after which the running
counter is negative, and is reported whatever follows position `i`.  For
`[LoopClose]` the position is `0`. -/
theorem validate_program_unmatched_close (tokens : List Token) (k : Nat)
    (h : (tokens.take k).count LOOP_BEG < (tokens.take k).count LOOP_END) :
    (∃ i, validate_program tokens = .error (.UnmatchedLoopClose i) ∧
      tokens[i]? = some LOOP_END ∧
      counter (tokens.take (i + 1)) < 0 ∧
      (∀ m, m ≤ i → 0 ≤ counter (tokens.take m)) ∧
      ∀ rest, validate_program (tokens.take (i + 1) ++ rest) = .error (.UnmatchedLoopClose i)) ∧
    validate_program [LOOP_END] = .error (.UnmatchedLoopClose 0) := by
  refine ⟨?_, by decide⟩
  have hn : ¬ NonNegFrom 0 tokens := by
    intro hn
    have := (nonNegFrom_iff 0 tokens).1 hn k
    rw [counter_eq_count] at this
    omega
  obtain ⟨pre, post, rfl, hpre, hc⟩ := exists_first_negative le_rfl hn
  have htake : (pre ++ LOOP_END :: post).take (pre.length + 1) = pre ++ [LOOP_END] := by
    rw [List.take_append_eq_append_take]
    simp
  refine ⟨pre.length, validate_program_of_split post hpre (by omega), ?_, ?_, ?_, ?_⟩
  · rw [List.getElem?_append_right (le_refl _)]
    simp
  · rw [htake, counter_append]
    simp only [counter, delta]
    omega
  · intro m hm
    rw [List.take_append_of_le_length hm]
    simpa using (nonNegFrom_iff 0 pre).1 hpre m
  · intro rest
    rw [htake, List.append_assoc]
    exact validate_program_of_split rest hpre (by omega)

theorem validate_program_unmatched_close_witness :
    (([LOOP_BEG, LOOP_END, LOOP_END, LOOP_BEG].take 3).count LOOP_BEG <
        ([LOOP_BEG, LOOP_END, LOOP_END, LOOP_BEG].take 3).count LOOP_END) ∧
    ((∃ i, validate_program [LOOP_BEG, LOOP_END, LOOP_END, LOOP_BEG] =
          .error (.UnmatchedLoopClose i) ∧
        [LOOP_BEG, LOOP_END, LOOP_END, LOOP_BEG][i]? = some LOOP_END ∧
        counter ([LOOP_BEG, LOOP_END, LOOP_END, LOOP_BEG].take (i + 1)) < 0 ∧
        (∀ m, m ≤ i → 0 ≤ counter ([LOOP_BEG, LOOP_END, LOOP_END, LOOP_BEG].take m)) ∧
        ∀ rest, validate_program ([LOOP_BEG, LOOP_END, LOOP_END, LOOP_BEG].take (i + 1) ++ rest) =
          .error (.UnmatchedLoopClose i)) ∧
      validate_program [LOOP_END] = .error (.UnmatchedLoopClose 0)) :=
  ⟨by decide,
    validate_program_unmatched_close [LOOP_BEG, LOOP_END, LOOP_END, LOOP_BEG] 3 (by decide)⟩

/-! ## Loop structure of validated programs -/

theorem balanced_of_validate {tokens : List Token} (h : validate_program tokens = .ok ()) :
    Balanced tokens := by
  obtain ⟨hn, hc⟩ := nonNegFrom_of_validate h
  obtain ⟨st, hst, hlen, -⟩ := exists_stack hn tokens.length le_rfl
  rw [List.take_length, hc] at hlen
  have : st = [] := List.length_eq_zero.1 (by exact_mod_cast hlen)
  subst this
  have hb : Balanced (slice tokens 0 tokens.length) := hst
  rwa [slice_zero_length] at hb

theorem exists_matching_close {tokens : List Token} (h : validate_program tokens = .ok ())
    {i : Nat} (hi : tokens[i]? = some LOOP_BEG) : ∃ j, Matching tokens i j := by
  obtain ⟨hn, hc⟩ := nonNegFrom_of_validate h
  obtain ⟨st, hst, hlen, hopen⟩ := exists_stack hn tokens.length le_rfl
  rw [List.take_length, hc] at hlen
  have : st = [] := List.length_eq_zero.1 (by exact_mod_cast hlen)
  subst this
  rcases hopen i (lt_length_of_getElem? hi) hi with hmem | ⟨j, -, hm⟩
  · cases hmem
  · exact ⟨j, hm⟩

theorem exists_matching_open {tokens : List Token} (hn : NonNegFrom 0 tokens)
    {j : Nat} (hj : tokens[j]? = some LOOP_END) : ∃ i, Matching tokens i j := by
  have hjl := lt_length_of_getElem? hj
  obtain ⟨st, hst, hlen, -⟩ := exists_stack hn j (Nat.le_of_lt hjl)
  have hge : 0 ≤ counter (tokens.take (j + 1)) := by
    simpa using (nonNegFrom_iff 0 tokens).1 hn (j + 1)
  rw [take_succ_of_getElem? hj, counter_append, ← hlen] at hge
  cases st with
  | nil => simp [counter, delta] at hge
  | cons p st => exact ⟨p, hst.top_matching hj⟩

/-- C3: a sequence accepted by `validate_program` is balanced: every
`LoopOpen` has exactly one matching `LoopClose` at a later position, with a
balanced sequence strictly between the two, and every `LoopClose` is the
matching close of exactly one earlier `LoopOpen`. -/
theorem validate_program_balanced (tokens : List Token)
    (h : validate_program tokens = .ok ()) :
    Balanced tokens ∧
    (∀ i, tokens[i]? = some LOOP_BEG → ∃! j, Matching tokens i j) ∧
    (∀ j, tokens[j]? = some LOOP_END → ∃! i, Matching tokens i j) := by
  refine ⟨balanced_of_validate h, fun i hi => ?_, fun j hj => ?_⟩
  · obtain ⟨j, hm⟩ := exists_matching_close h hi
    exact ⟨j, hm, fun j' hm' => hm'.close_unique hm⟩
  · obtain ⟨i, hm⟩ := exists_matching_open (nonNegFrom_of_validate h).1 hj
    exact ⟨i, hm, fun i' hm' => hm'.open_unique hm⟩

theorem validate_program_balanced_witness :
    validate_program [LOOP_BEG, LOOP_BEG, INCR, LOOP_END, LOOP_END] = .ok () ∧
    (Balanced [LOOP_BEG, LOOP_BEG, INCR, LOOP_END, LOOP_END] ∧
      (∀ i, [LOOP_BEG, LOOP_BEG, INCR, LOOP_END, LOOP_END][i]? = some LOOP_BEG →
        ∃! j, Matching [LOOP_BEG, LOOP_BEG, INCR, LOOP_END, LOOP_END] i j) ∧
      (∀ j, [LOOP_BEG, LOOP_BEG, INCR, LOOP_END, LOOP_END][j]? = some LOOP_END →
        ∃! i, Matching [LOOP_BEG, LOOP_BEG, INCR, LOOP_END, LOOP_END] i j)) :=
  ⟨by decide,
    validate_program_balanced [LOOP_BEG, LOOP_BEG, INCR, LOOP_END, LOOP_END] (by decide)⟩

/-- C7: when the running counter never goes negative but ends at a value
other than `0`, `validate_program` fails with the unmatched-open error and
reports that value, which is the number of `LoopOpen` positions without a
matching `LoopClose`.  For `[LoopOpen]` the count is `1`. -/
theorem validate_program_unmatched_open (tokens : List Token)
    (hn : ∀ k, k < tokens.length → 0 ≤ counter (tokens.take (k + 1)))
    (hc : counter tokens ≠ 0) :
    validate_program tokens = .error (.UnmatchedLoopOpen (counter tokens)) ∧
    (Set.ncard {i | tokens[i]? = some LOOP_BEG ∧ ¬ ∃ j, Matching tokens i j} : Int)
      = counter tokens ∧
    validate_program [LOOP_BEG] = .error (.UnmatchedLoopOpen 1) := by
  rw [← nonNegFrom_zero_iff_positions] at hn
  refine ⟨by rw [validate_program_of_nonNeg hn]; simp [hc], ?_, by decide⟩
  obtain ⟨st, hst, hlen, hopen⟩ := exists_stack hn tokens.length le_rfl
  rw [List.take_length] at hlen
  have hset : {i | tokens[i]? = some LOOP_BEG ∧ ¬ ∃ j, Matching tokens i j}
      = (↑st.toFinset : Set Nat) := by
    ext i
    simp only [Set.mem_setOf_eq, Finset.mem_coe, List.mem_toFinset]
    constructor
    · rintro ⟨hi, hno⟩
      rcases hopen i (lt_length_of_getElem? hi) hi with hmem | ⟨j, -, hm⟩
      · exact hmem
      · exact absurd ⟨j, hm⟩ hno
    · intro hmem
      refine ⟨hst.open_of_mem hmem, ?_⟩
      rintro ⟨j, hm⟩
      exact not_matching_of_nonNeg (hst.nonNeg_of_mem le_rfl hmem) hm
        (lt_length_of_getElem? hm.2.2.1) le_rfl
  rw [hset, Set.ncard_coe_Finset, List.toFinset_card_of_nodup hst.nodup, hlen]

theorem validate_program_unmatched_open_witness :
    (∀ k, k < [LOOP_BEG, LOOP_BEG, LOOP_END].length →
      0 ≤ counter ([LOOP_BEG, LOOP_BEG, LOOP_END].take (k + 1))) ∧
    counter [LOOP_BEG, LOOP_BEG, LOOP_END] ≠ 0 ∧
    (validate_program [LOOP_BEG, LOOP_BEG, LOOP_END] =
        .error (.UnmatchedLoopOpen (counter [LOOP_BEG, LOOP_BEG, LOOP_END])) ∧
      (Set.ncard {i | [LOOP_BEG, LOOP_BEG, LOOP_END][i]? = some LOOP_BEG ∧
          ¬ ∃ j, Matching [LOOP_BEG, LOOP_BEG, LOOP_END] i j} : Int)
        = counter [LOOP_BEG, LOOP_BEG, LOOP_END] ∧
      validate_program [LOOP_BEG] = .error (.UnmatchedLoopOpen 1)) :=
  ⟨by decide, by decide,
    validate_program_unmatched_open [LOOP_BEG, LOOP_BEG, LOOP_END] (by decide) (by decide)⟩

/-! ## Tokenizer -/

theorem symbolToken_eq (c : Char) : symbolToken c =
    if c = '>' then some PTR_RIGHT else if c = '<' then some PTR_LEFT
    else if c = '+' then some INCR else if c = '-' then some DECR
    else if c = '.' then some OUTP else if c = ',' then some INP
    else if c = '[' then some LOOP_BEG else if c = ']' then some LOOP_END else none := by
  unfold symbolToken
  split <;> simp_all

theorem mem_alphabet (c : Char) : c ∈ alphabet ↔
    c = '>' ∨ c = '<' ∨ c = '+' ∨ c = '-' ∨ c = '.' ∨ c = ',' ∨ c = '[' ∨ c = ']' := by
  simp [alphabet]

/-- The result of `convert_to_tokens`: the flag tells whether every symbol is
in the alphabet, and the vector has received the tokens of the symbols in
front of the first one that is not. -/
theorem convert_to_tokens_eq (content : List Char) (tokens : List Token) :
    convert_to_tokens content tokens =
      (content.all (fun c => decide (c ∈ alphabet)),
        tokens ++ (content.takeWhile (fun c => decide (c ∈ alphabet))).filterMap symbolToken) := by
  induction content generalizing tokens with
  | nil => simp [convert_to_tokens]
  | cons c content ih =>
    rw [convert_to_tokens]
    simp only [ih, List.all_cons, List.takeWhile_cons, mem_alphabet, symbolToken_eq]
    split_ifs <;> simp_all [symbolToken_eq]

theorem map_some_filterMap_symbolToken {l : List Char} (h : ∀ c ∈ l, c ∈ alphabet) :
    (l.filterMap symbolToken).map some = l.map symbolToken := by
  induction l with
  | nil => rfl
  | cons c l ih =>
    have hc := (mem_alphabet c).1 (h c (List.mem_cons_self _ _))
    have hl := ih fun x hx => h x (List.mem_cons_of_mem _ hx)
    rcases hc with rfl | rfl | rfl | rfl | rfl | rfl | rfl | rfl <;>
      simp [symbolToken, List.filterMap_cons, hl]

theorem takeWhile_alphabet_of_all {l : List Char} (h : ∀ c ∈ l, c ∈ alphabet) :
    l.takeWhile (fun c => decide (c ∈ alphabet)) = l := by
  rw [List.takeWhile_eq_self_iff]
  intro c hc
  simpa using h c hc

theorem exists_first_invalid {l : List Char} (h : ∃ c ∈ l, c ∉ alphabet) :
    ∃ pre c post, l = pre ++ c :: post ∧ (∀ x ∈ pre, x ∈ alphabet) ∧ c ∉ alphabet ∧
      l.takeWhile (fun c => decide (c ∈ alphabet)) = pre := by
  induction l with
  | nil => obtain ⟨c, hc, -⟩ := h; cases hc
  | cons a l ih =>
    by_cases ha : a ∈ alphabet
    · obtain ⟨c, hc, hnot⟩ := h
      have hcl : c ∈ l := by
        rcases List.mem_cons.1 hc with rfl | hcl
        · exact absurd ha hnot
        · exact hcl
      obtain ⟨pre, c', post, rfl, hpre, hc', htake⟩ := ih ⟨c, hcl, hnot⟩
      refine ⟨a :: pre, c', post, rfl, ?_, hc', ?_⟩
      · intro x hx
        rcases List.mem_cons.1 hx with rfl | hx
        · exact ha
        · exact hpre x hx
      · rw [List.takeWhile_cons, if_pos (by simpa using ha), htake]
    · refine ⟨[], a, l, rfl, fun x hx => ?_, ha, ?_⟩
      · cases hx
      · rw [List.takeWhile_cons, if_neg (by simpa using ha)]

/-- C8: on symbols that are all in the alphabet, `convert_to_tokens` called
with an empty vector succeeds, produces as many instructions as there are
symbols, and the instruction at each position is the image of the symbol at
that position under the symbol-to-instruction table. -/
theorem convert_to_tokens_valid (content : List Char) (h : ∀ c ∈ content, c ∈ alphabet) :
    (convert_to_tokens content []).1 = true ∧
    (convert_to_tokens content []).2.length = content.length ∧
    ∀ (k : Nat) (c : Char), content[k]? = some c →
      ∃ t, symbolToken c = some t ∧ (convert_to_tokens content []).2[k]? = some t := by
  have hmap := map_some_filterMap_symbolToken h
  rw [convert_to_tokens_eq, takeWhile_alphabet_of_all h]
  refine ⟨?_, ?_, fun k c hk => ?_⟩
  · simpa using h
  · have := congrArg List.length hmap
    simpa using this
  · have := congrArg (fun l => l[k]?) hmap
    simp only [List.getElem?_map, hk, Option.map_some', List.nil_append] at this ⊢
    cases hout : (List.filterMap symbolToken content)[k]? with
    | none => rw [hout] at this; cases this
    | some t =>
      rw [hout] at this
      exact ⟨t, (Option.some.inj this).symm ▸ rfl, rfl⟩

theorem convert_to_tokens_valid_witness :
    (∀ c ∈ ['+', '[', '-', ']', '>', '.', ',', '<'], c ∈ alphabet) ∧
    ((convert_to_tokens ['+', '[', '-', ']', '>', '.', ',', '<'] []).1 = true ∧
      (convert_to_tokens ['+', '[', '-', ']', '>', '.', ',', '<'] []).2.length =
        ['+', '[', '-', ']', '>', '.', ',', '<'].length ∧
      ∀ (k : Nat) (c : Char), ['+', '[', '-', ']', '>', '.', ',', '<'][k]? = some c →
        ∃ t, symbolToken c = some t ∧
          (convert_to_tokens ['+', '[', '-', ']', '>', '.', ',', '<'] []).2[k]? = some t) :=
  ⟨by decide, convert_to_tokens_valid ['+', '[', '-', ']', '>', '.', ',', '<'] (by decide)⟩

/-- C9, as the code has it: on symbols of which one is outside the alphabet,
`convert_to_tokens` reports failure, and the vector then holds what it held
on entry followed by the tokens of the symbols in front of the first symbol
outside the alphabet, one token for each of them. -/
theorem convert_to_tokens_failure_output (content : List Char) (tokens : List Token)
    (h : ∃ c ∈ content, c ∉ alphabet) :
    ∃ pre c post, content = pre ++ c :: post ∧ (∀ x ∈ pre, x ∈ alphabet) ∧ c ∉ alphabet ∧
      convert_to_tokens content tokens = (false, tokens ++ pre.filterMap symbolToken) ∧
      (pre.filterMap symbolToken).map some = pre.map symbolToken := by
  obtain ⟨pre, c, post, hsplit, hpre, hc, htake⟩ := exists_first_invalid h
  refine ⟨pre, c, post, hsplit, hpre, hc, ?_, map_some_filterMap_symbolToken hpre⟩
  rw [convert_to_tokens_eq, htake]
  congr 1
  rw [List.all_eq_false]
  exact ⟨c, by rw [hsplit]; simp, by simpa using hc⟩

theorem convert_to_tokens_failure_output_witness :
    (∃ c ∈ ['+', '-', 'x', '>'], c ∉ alphabet) ∧
    ∃ pre c post, ['+', '-', 'x', '>'] = pre ++ c :: post ∧ (∀ x ∈ pre, x ∈ alphabet) ∧
      c ∉ alphabet ∧
      convert_to_tokens ['+', '-', 'x', '>'] [LOOP_BEG] =
        (false, [LOOP_BEG] ++ pre.filterMap symbolToken) ∧
      (pre.filterMap symbolToken).map some = pre.map symbolToken :=
  ⟨⟨'x', by decide, by decide⟩,
    convert_to_tokens_failure_output ['+', '-', 'x', '>'] [LOOP_BEG] ⟨'x', by decide, by decide⟩⟩

/-- C9 fails as stated: on `+x` the call reports failure and leaves the token
of `+` in the vector, which was empty on entry. -/
theorem convert_to_tokens_failure_leaves_tokens :
    'x' ∉ alphabet ∧ convert_to_tokens ['+', 'x'] [] = (false, [INCR]) ∧
      (convert_to_tokens ['+', 'x'] []).2 ≠ [] := by
  decide

/-- C10: `convert_to_tokens` reports failure exactly when some symbol is
outside the alphabet; when it reports success, every symbol has been turned
into its instruction of the table, in order, none dropped or replaced. -/
theorem convert_to_tokens_fails_iff (content : List Char) (tokens : List Token) :
    ((convert_to_tokens content tokens).1 = false ↔ ∃ c ∈ content, c ∉ alphabet) ∧
    ((convert_to_tokens content tokens).1 = true →
      (convert_to_tokens content tokens).2.map some =
        tokens.map some ++ content.map symbolToken) := by
  rw [convert_to_tokens_eq]
  refine ⟨by simp [List.all_eq_false], fun hall => ?_⟩
  have h : ∀ c ∈ content, c ∈ alphabet := by simpa using hall
  simp only [takeWhile_alphabet_of_all h, List.map_append, map_some_filterMap_symbolToken h]

/-! ## Execution engine: memory accesses -/

theorem neg_tmod_eq (a b : Int) : (-a).tmod b = -(a.tmod b) := by
  rw [Int.tmod_def, Int.tmod_def, Int.neg_tdiv]; ring

theorem wrap_val_range (v : Int) {n : Int} (hn : 0 < n) :
    0 ≤ wrap_val v 0 n ∧ wrap_val v 0 n < n := by
  unfold wrap_val
  simp only [sub_zero, zero_add]
  have hlt := Int.tmod_lt_of_pos v hn
  rcases le_or_lt 0 v with hv | hv
  · have h0 := Int.tmod_nonneg n hv
    rw [if_neg (not_lt.2 h0)]
    exact ⟨h0, hlt⟩
  · have h1 : (-v).tmod n = -(v.tmod n) := neg_tmod_eq v n
    have h2 := Int.tmod_nonneg n (show 0 ≤ -v by omega)
    have h3 := Int.tmod_lt_of_pos (-v) hn
    split_ifs <;> omega

theorem load_ok {tokens : List Token} {s : State} (h : Inv tokens s) :
    ∃ c, load s = .ok c ∧ s.memory[s.memory_index.toNat]? = some c := by
  have hlt : s.memory_index.toNat < s.memory.length := by
    rw [h.mem_length, Int.toNat_lt h.index_nonneg]; exact h.index_lt
  refine ⟨s.memory[s.memory_index.toNat], ?_, List.getElem?_eq_getElem hlt⟩
  simp [load, h.index_nonneg, List.getElem?_eq_getElem hlt]

theorem store_ok {tokens : List Token} {s : State} (h : Inv tokens s) (v : Nat) :
    store s v = .ok { s with memory := s.memory.set s.memory_index.toNat v } := by
  have hlt : s.memory_index.toNat < s.memory.length := by
    rw [h.mem_length, Int.toNat_lt h.index_nonneg]; exact h.index_lt
  simp [store, h.index_nonneg, List.getElem?_eq_getElem hlt]

/-! ## Execution engine: the skip-mode scan -/

theorem skip_loop_zero (tokens : List Token) (n i : Nat) : skip_loop tokens n 0 i = .ok i := by
  cases n <;> simp [skip_loop]

/-- The equation of the `while` loop: with the iteration bound
`tokens.size() - i` of the call, `skip_loop` tests the loop condition, reads
`tokens[i + 1]` and goes on from `i + 1` with the bound of that index. -/
theorem skip_loop_while (tokens : List Token) (loops : Int) (i : Nat) :
    skip_loop tokens (tokens.length - i) loops i =
      if loops ≠ 0 ∧ i < tokens.length then
        match tokens[i + 1]? with
        | none => .error .tokenIndex
        | some t =>
          skip_loop tokens (tokens.length - (i + 1))
            (if t = LOOP_END then (if t = LOOP_BEG then loops + 1 else loops) - 1
              else (if t = LOOP_BEG then loops + 1 else loops)) (i + 1)
      else .ok i := by
  cases hn : tokens.length - i with
  | zero =>
    have : ¬ i < tokens.length := by omega
    simp [skip_loop, this]
  | succ n =>
    have : tokens.length - (i + 1) = n := by omega
    rw [this, skip_loop]

theorem skip_loop_succ {tokens : List Token} {n i : Nat} {d : Int} {t : Token}
    (hd : d ≠ 0) (ht : tokens[i + 1]? = some t) :
    skip_loop tokens (n + 1) d i = skip_loop tokens n (d + delta t) (i + 1) := by
  have hi : i < tokens.length := by have := lt_length_of_getElem? ht; omega
  rw [skip_loop, if_pos ⟨hd, hi⟩, ht]
  cases t <;> simp [delta, sub_eq_add_neg]

/-- The scan at depth `d` runs over a part `body` of the tokens on which the
depth stays positive and stops on the `LoopClose` that takes it to zero. -/
theorem skip_loop_body {tokens : List Token} (post : List Token) (body : List Token) :
    ∀ (n : Nat) (d : Int) (i : Nat), tokens.drop (i + 1) = body ++ LOOP_END :: post →
      NonNegFrom (d - 1) body → d + counter body = 1 → tokens.length - i ≤ n →
      skip_loop tokens n d i = .ok (i + 1 + body.length) := by
  induction body with
  | nil =>
    intro n d i hdrop _ hd hn
    have ht : tokens[i + 1]? = some LOOP_END := by
      have := List.getElem?_drop tokens (i + 1) 0
      rw [hdrop, add_zero] at this
      simpa using this.symm
    have hlen := lt_length_of_getElem? ht
    obtain ⟨n, rfl⟩ : ∃ m, n = m + 1 := ⟨n - 1, by omega⟩
    simp only [counter, add_zero] at hd
    subst hd
    rw [skip_loop_succ one_ne_zero ht]
    simpa [delta] using skip_loop_zero tokens n (i + 1)
  | cons t body ih =>
    intro n d i hdrop hnn hd hn
    have ht : tokens[i + 1]? = some t := by
      have := List.getElem?_drop tokens (i + 1) 0
      rw [hdrop, add_zero] at this
      simpa using this.symm
    have hlen := lt_length_of_getElem? ht
    obtain ⟨n, rfl⟩ : ∃ m, n = m + 1 := ⟨n - 1, by omega⟩
    have hd0 : d ≠ 0 := by have := hnn.1; omega
    have hdrop' : tokens.drop (i + 1 + 1) = body ++ LOOP_END :: post := by
      have := congrArg (List.drop 1) hdrop
      rwa [List.drop_drop] at this
    rw [skip_loop_succ hd0 ht, ih n (d + delta t) (i + 1) hdrop' (by
      have := hnn.2; rwa [show d + delta t - 1 = d - 1 + delta t by ring])
      (by simp only [counter] at hd; omega) (by omega)]
    simp only [List.length_cons]
    congr 1
    omega

theorem drop_eq_of_matching {tokens : List Token} {i j : Nat} (h : Matching tokens i j) :
    tokens.drop (i + 1) = slice tokens (i + 1) j ++ LOOP_END :: tokens.drop (j + 1) := by
  obtain ⟨hij, -, hj, -⟩ := h
  have hjl := lt_length_of_getElem? hj
  have h1 : tokens.drop (i + 1) = slice tokens (i + 1) tokens.length := by simp [slice]
  have h2 : tokens.drop (j + 1) = slice tokens (j + 1) tokens.length := by simp [slice]
  rw [h1, h2, ← slice_append_slice tokens (show i + 1 ≤ j by omega) (Nat.le_of_lt hjl) le_rfl,
    ← slice_append_slice tokens (show j ≤ j + 1 by omega) hjl le_rfl, slice_succ hj]
  rfl

theorem length_slice (l : List Token) (a b : Nat) (hb : b ≤ l.length) :
    (slice l a b).length = b - a := by
  simp [slice, Nat.min_eq_left hb]

/-- Started on a `LoopOpen` that has a matching `LoopClose`, the skip-mode
scan ends on that `LoopClose`. -/
theorem skip_loop_matching {tokens : List Token} {i j : Nat} (h : Matching tokens i j) :
    skip_loop tokens (tokens.length - i) 1 i = .ok j := by
  have hjl := lt_length_of_getElem? h.2.2.1
  have hij := h.1
  rw [skip_loop_body (tokens.drop (j + 1)) (slice tokens (i + 1) j) _ 1 i
    (drop_eq_of_matching h) (h.2.2.2.nonNegFrom (by norm_num))
    (by rw [h.2.2.2.counter_eq_zero]; rfl) le_rfl,
    length_slice _ _ _ (Nat.le_of_lt hjl)]
  congr 1
  omega

/-! ## Execution engine: one iteration -/

theorem step_ptr_right {tokens : List Token} {s : State}
    (ht : tokens[s.i]? = some PTR_RIGHT) :
    step tokens s = .ok { s with
      memory_index := wrap_val (s.memory_index + 1) 0 PROGRAM_MEM_SIZE, i := s.i + 1 } := by
  simp [step, ht]

theorem step_ptr_left {tokens : List Token} {s : State}
    (ht : tokens[s.i]? = some PTR_LEFT) :
    step tokens s = .ok { s with
      memory_index := wrap_val (s.memory_index - 1) 0 PROGRAM_MEM_SIZE, i := s.i + 1 } := by
  simp [step, ht]

theorem step_incr {tokens : List Token} {s : State} {c : Nat} (hinv : Inv tokens s)
    (ht : tokens[s.i]? = some INCR) (hc : load s = .ok c) :
    step tokens s = .ok { s with
      memory := s.memory.set s.memory_index.toNat ((c + 1) % 256), i := s.i + 1 } := by
  simp [step, ht, hc, store_ok hinv, bind, Except.bind, pure, Except.pure]

theorem step_decr {tokens : List Token} {s : State} {c : Nat} (hinv : Inv tokens s)
    (ht : tokens[s.i]? = some DECR) (hc : load s = .ok c) :
    step tokens s = .ok { s with
      memory := s.memory.set s.memory_index.toNat ((c + 255) % 256), i := s.i + 1 } := by
  simp [step, ht, hc, store_ok hinv, bind, Except.bind, pure, Except.pure]

theorem step_outp {tokens : List Token} {s : State} {c : Nat}
    (ht : tokens[s.i]? = some OUTP) (hc : load s = .ok c) :
    step tokens s = .ok { s with output := s.output ++ [c], i := s.i + 1 } := by
  simp [step, ht, hc, bind, Except.bind, pure, Except.pure]

theorem step_inp_nil {tokens : List Token} {s : State} {c : Nat}
    (ht : tokens[s.i]? = some INP) (hc : load s = .ok c) (hin : s.input = []) :
    step tokens s = .ok { s with i := s.i + 1 } := by
  simp [step, ht, hc, hin, bind, Except.bind, pure, Except.pure]

theorem step_inp_cons {tokens : List Token} {s : State} {c b : Nat} {rest : List Nat}
    (hinv : Inv tokens s) (ht : tokens[s.i]? = some INP) (hc : load s = .ok c)
    (hin : s.input = b :: rest) :
    step tokens s = .ok { s with
      memory := s.memory.set s.memory_index.toNat (b % 256), input := rest, i := s.i + 1 } := by
  simp [step, ht, hc, hin, store_ok hinv, bind, Except.bind, pure, Except.pure]

theorem step_loop_beg_zero {tokens : List Token} {s : State} {j : Nat}
    (ht : tokens[s.i]? = some LOOP_BEG) (hc : load s = .ok 0) (hm : Matching tokens s.i j) :
    step tokens s = .ok { s with i := j + 1 } := by
  simp [step, ht, hc, skip_loop_matching hm, bind, Except.bind, pure, Except.pure]

theorem step_loop_beg_nonzero {tokens : List Token} {s : State} {c : Nat}
    (ht : tokens[s.i]? = some LOOP_BEG) (hc : load s = .ok c) (h0 : c ≠ 0) :
    step tokens s = .ok { s with
      loop_beginnings := s.i :: s.loop_beginnings, i := s.i + 1 } := by
  simp [step, ht, hc, h0, bind, Except.bind, pure, Except.pure]

theorem step_loop_end {tokens : List Token} {s : State} {c p : Nat} {rest : List Nat}
    (ht : tokens[s.i]? = some LOOP_END) (hst : s.loop_beginnings = p :: rest)
    (hc : load s = .ok c) :
    step tokens s = .ok { s with
      loop_beginnings := rest, i := if c ≠ 0 then p else s.i + 1 } := by
  by_cases h0 : c = 0 <;>
    simp [step, ht, hst, hc, h0, bind, Except.bind, pure, Except.pure]

/-! ## Execution engine: the invariant -/

theorem stack_ne_nil_of_loop_end {tokens : List Token} {s : State}
    (hv : validate_program tokens = .ok ()) (hinv : Inv tokens s)
    (ht : tokens[s.i]? = some LOOP_END) : s.loop_beginnings ≠ [] := by
  intro hnil
  have hst := hinv.stack
  rw [hnil] at hst
  have hb : Balanced (slice tokens 0 s.i) := hst
  rw [slice_zero] at hb
  have hge : 0 ≤ counter (tokens.take (s.i + 1)) := by
    simpa using (nonNegFrom_iff 0 tokens).1 (nonNegFrom_of_validate hv).1 (s.i + 1)
  rw [take_succ_of_getElem? ht, counter_append, hb.counter_eq_zero] at hge
  simp [counter, delta] at hge

theorem inv_init (tokens : List Token) (input : List Nat) : Inv tokens (init input) where
  mem_length := List.length_replicate _ _
  index_nonneg := le_refl (0 : Int)
  index_lt := by
    show (0 : Int) < (PROGRAM_MEM_SIZE : Int)
    simp [PROGRAM_MEM_SIZE]
  cursor_le := Nat.zero_le _
  stack := by
    show Balanced (slice tokens 0 0)
    rw [slice_self]; exact Balanced.nil

/-- On a validated program an iteration started in a state of the invariant
runs into no fault and ends in a state of the invariant. -/
theorem step_inv {tokens : List Token} {s : State}
    (hv : validate_program tokens = .ok ()) (hinv : Inv tokens s) (hi : s.i < tokens.length) :
    ∃ s', step tokens s = .ok s' ∧ Inv tokens s' := by
  obtain ⟨t, ht⟩ : ∃ t, tokens[s.i]? = some t := ⟨tokens[s.i], List.getElem?_eq_getElem hi⟩
  obtain ⟨c, hc, -⟩ := load_ok hinv
  have hN : (0 : Int) < (PROGRAM_MEM_SIZE : Int) := by simp [PROGRAM_MEM_SIZE]
  cases t with
  | PTR_RIGHT =>
    refine ⟨_, step_ptr_right ht, ?_⟩
    exact ⟨hinv.mem_length, (wrap_val_range _ hN).1, (wrap_val_range _ hN).2, hi,
      hinv.stack.plain ht (by decide) (by decide)⟩
  | PTR_LEFT =>
    refine ⟨_, step_ptr_left ht, ?_⟩
    exact ⟨hinv.mem_length, (wrap_val_range _ hN).1, (wrap_val_range _ hN).2, hi,
      hinv.stack.plain ht (by decide) (by decide)⟩
  | INCR =>
    refine ⟨_, step_incr hinv ht hc, ?_⟩
    exact ⟨by simpa using hinv.mem_length, hinv.index_nonneg, hinv.index_lt, hi,
      hinv.stack.plain ht (by decide) (by decide)⟩
  | DECR =>
    refine ⟨_, step_decr hinv ht hc, ?_⟩
    exact ⟨by simpa using hinv.mem_length, hinv.index_nonneg, hinv.index_lt, hi,
      hinv.stack.plain ht (by decide) (by decide)⟩
  | OUTP =>
    refine ⟨_, step_outp ht hc, ?_⟩
    exact ⟨hinv.mem_length, hinv.index_nonneg, hinv.index_lt, hi,
      hinv.stack.plain ht (by decide) (by decide)⟩
  | INP =>
    cases hin : s.input with
    | nil =>
      refine ⟨_, step_inp_nil ht hc hin, ?_⟩
      exact ⟨hinv.mem_length, hinv.index_nonneg, hinv.index_lt, hi,
        hinv.stack.plain ht (by decide) (by decide)⟩
    | cons b rest =>
      refine ⟨_, step_inp_cons hinv ht hc hin, ?_⟩
      exact ⟨by simpa using hinv.mem_length, hinv.index_nonneg, hinv.index_lt, hi,
        hinv.stack.plain ht (by decide) (by decide)⟩
  | LOOP_BEG =>
    by_cases h0 : c = 0
    · subst h0
      obtain ⟨j, hm⟩ := exists_matching_close hv ht
      refine ⟨_, step_loop_beg_zero ht hc hm, ?_⟩
      exact ⟨hinv.mem_length, hinv.index_nonneg, hinv.index_lt,
        lt_length_of_getElem? hm.2.2.1, hinv.stack.skip hm⟩
    · refine ⟨_, step_loop_beg_nonzero ht hc h0, ?_⟩
      exact ⟨hinv.mem_length, hinv.index_nonneg, hinv.index_lt, hi, hinv.stack.push ht⟩
  | LOOP_END =>
    cases hst : s.loop_beginnings with
    | nil => exact absurd hst (stack_ne_nil_of_loop_end hv hinv ht)
    | cons p rest =>
      have hstack := hinv.stack
      rw [hst] at hstack
      refine ⟨_, step_loop_end ht hst hc, ?_⟩
      by_cases h0 : c = 0
      · simp only [h0, ne_eq, not_true_eq_false, if_false]
        exact ⟨hinv.mem_length, hinv.index_nonneg, hinv.index_lt, hi, hstack.pop ht⟩
      · simp only [h0, ne_eq, not_false_eq_true, if_true]
        exact ⟨hinv.mem_length, hinv.index_nonneg, hinv.index_lt,
          Nat.le_of_lt (lt_trans hstack.1 hi), hstack.2.2.2⟩

theorem run_inv {tokens : List Token} (hv : validate_program tokens = .ok ()) (n : Nat) :
    ∀ s, Inv tokens s → ∃ s', run tokens n s = .ok s' ∧ Inv tokens s' := by
  induction n with
  | zero => exact fun s hs => ⟨s, rfl, hs⟩
  | succ n ih =>
    intro s hs
    by_cases hi : s.i < tokens.length
    · obtain ⟨s1, h1, hs1⟩ := step_inv hv hs hi
      obtain ⟨s2, h2, hs2⟩ := ih s1 hs1
      exact ⟨s2, by simp [run, hi, h1, h2], hs2⟩
    · exact ⟨s, by simp [run, hi], hs⟩

theorem inv_of_reachable {tokens : List Token} {input : List Nat} {s : State}
    (hv : validate_program tokens = .ok ()) (hr : Reachable tokens input s) : Inv tokens s := by
  obtain ⟨n, hn⟩ := hr
  obtain ⟨s', h', hs'⟩ := run_inv hv n (init input) (inv_init tokens input)
  rw [interpret_program, h'] at hn
  cases hn
  exact hs'

theorem run_of_halted {tokens : List Token} {s : State} (n : Nat)
    (h : ¬ s.i < tokens.length) : run tokens n s = .ok s := by
  cases n <;> simp [run, h]

theorem run_succ_of_step {tokens : List Token} {s s' : State} (n : Nat)
    (hi : s.i < tokens.length) (h : step tokens s = .ok s') :
    run tokens (n + 1) s = run tokens n s' := by
  simp [run, hi, h]

theorem init_memory_zero (input : List Nat) : ∀ c ∈ (init input).memory, c = 0 :=
  fun _ hc => List.eq_of_mem_replicate hc

/-! ## Execution engine: loop handling on validated programs -/

/-- C1: on a validated program, for every input, the engine runs into no
fault however many iterations it makes; in every reachable state whose cursor
is inside the program, the stack is not empty when the instruction is a
`LoopClose`, the skip-mode scan started at a `LoopOpen` ends at an index
inside the token sequence without reading beyond it, and the iteration
neither pops an empty stack nor reads a token out of range. -/
theorem interpret_program_loop_safe (tokens : List Token) (input : List Nat)
    (hv : validate_program tokens = .ok ()) :
    (∀ n, ∃ s, interpret_program tokens input n = .ok s) ∧
    ∀ s, Reachable tokens input s → s.i < tokens.length →
      (tokens[s.i]? = some LOOP_END → s.loop_beginnings ≠ []) ∧
      (tokens[s.i]? = some LOOP_BEG →
        ∃ j, skip_loop tokens (tokens.length - s.i) 1 s.i = .ok j ∧ j < tokens.length) ∧
      step tokens s ≠ .error .emptyStack ∧ step tokens s ≠ .error .tokenIndex := by
  refine ⟨fun n => ?_, fun s hr hi => ?_⟩
  · obtain ⟨s, hs, -⟩ := run_inv hv n (init input) (inv_init tokens input)
    exact ⟨s, hs⟩
  · have hinv := inv_of_reachable hv hr
    obtain ⟨s', hs', -⟩ := step_inv hv hinv hi
    refine ⟨stack_ne_nil_of_loop_end hv hinv, fun ht => ?_, ?_, ?_⟩
    · obtain ⟨j, hm⟩ := exists_matching_close hv ht
      exact ⟨j, skip_loop_matching hm, lt_length_of_getElem? hm.2.2.1⟩
    · rw [hs']; exact fun h => by cases h
    · rw [hs']; exact fun h => by cases h

theorem interpret_program_loop_safe_witness :
    validate_program skippedNest = .ok () ∧
    ((∀ n, ∃ s, interpret_program skippedNest [] n = .ok s) ∧
      ∀ s, Reachable skippedNest [] s → s.i < skippedNest.length →
        (skippedNest[s.i]? = some LOOP_END → s.loop_beginnings ≠ []) ∧
        (skippedNest[s.i]? = some LOOP_BEG →
          ∃ j, skip_loop skippedNest (skippedNest.length - s.i) 1 s.i = .ok j ∧
            j < skippedNest.length) ∧
        step skippedNest s ≠ .error .emptyStack ∧ step skippedNest s ≠ .error .tokenIndex) :=
  ⟨by decide, interpret_program_loop_safe skippedNest [] (by decide)⟩

/-- C4: on a validated program, in every state (reachable or not) whose
cursor is on a `LoopOpen` while the current cell is zero, one iteration moves
the cursor just behind the `LoopClose` matching that `LoopOpen` and changes
nothing else.  The programs `[+]` and `[[+]]` end after one iteration on a
fresh tape, with every cell still zero. -/
theorem step_loop_open_zero (tokens : List Token) (s : State)
    (hv : validate_program tokens = .ok ())
    (ht : tokens[s.i]? = some LOOP_BEG) (hc : load s = .ok 0) :
    (∃ j, Matching tokens s.i j ∧ step tokens s = .ok { s with i := j + 1 }) ∧
    (∀ inp n, ∃ s', interpret_program skippedLoop inp (n + 1) = .ok s' ∧
      Halted skippedLoop s' ∧ ∀ c ∈ s'.memory, c = 0) ∧
    (∀ inp n, ∃ s', interpret_program skippedNest inp (n + 1) = .ok s' ∧
      Halted skippedNest s' ∧ ∀ c ∈ s'.memory, c = 0) := by
  refine ⟨?_, fun inp n => ⟨{ init inp with i := 3 }, ?_, ?_, init_memory_zero inp⟩,
    fun inp n => ⟨{ init inp with i := 5 }, ?_, ?_, init_memory_zero inp⟩⟩
  · obtain ⟨j, hm⟩ := exists_matching_close hv ht
    exact ⟨j, hm, step_loop_beg_zero ht hc hm⟩
  · have h1 : step skippedLoop (init inp) = .ok { init inp with i := 3 } := rfl
    rw [interpret_program, run_succ_of_step n (show (0 : Nat) < 3 by decide) h1]
    exact run_of_halted n (show ¬ (3 : Nat) < 3 by decide)
  · exact (show ¬ (3 : Nat) < 3 by decide)
  · have h1 : step skippedNest (init inp) = .ok { init inp with i := 5 } := rfl
    rw [interpret_program, run_succ_of_step n (show (0 : Nat) < 5 by decide) h1]
    exact run_of_halted n (show ¬ (5 : Nat) < 5 by decide)
  · exact (show ¬ (5 : Nat) < 5 by decide)

theorem step_loop_open_zero_witness :
    validate_program skippedNest = .ok () ∧
    skippedNest[(init []).i]? = some LOOP_BEG ∧ load (init []) = .ok 0 ∧
    ((∃ j, Matching skippedNest (init []).i j ∧
        step skippedNest (init []) = .ok { init [] with i := j + 1 }) ∧
      (∀ inp n, ∃ s', interpret_program skippedLoop inp (n + 1) = .ok s' ∧
        Halted skippedLoop s' ∧ ∀ c ∈ s'.memory, c = 0) ∧
      (∀ inp n, ∃ s', interpret_program skippedNest inp (n + 1) = .ok s' ∧
        Halted skippedNest s' ∧ ∀ c ∈ s'.memory, c = 0)) :=
  ⟨by decide, by decide, by decide,
    step_loop_open_zero skippedNest (init []) (by decide) (by decide) (by decide)⟩

/-- C5: on a validated program, in a reachable state whose cursor `j` is on a
`LoopClose`, one iteration pops the stack; the popped position `p` is that of
the `LoopOpen` matching the `LoopClose` at `j`; the cursor goes to `p` itself
when the current cell is not zero and to `j + 1` when it is zero; nothing
else changes. -/
theorem step_loop_close (tokens : List Token) (input : List Nat) (s : State)
    (hv : validate_program tokens = .ok ()) (hr : Reachable tokens input s)
    (ht : tokens[s.i]? = some LOOP_END) :
    ∃ p rest c, s.loop_beginnings = p :: rest ∧ Matching tokens p s.i ∧ load s = .ok c ∧
      step tokens s =
        .ok { s with loop_beginnings := rest, i := if c ≠ 0 then p else s.i + 1 } := by
  have hinv := inv_of_reachable hv hr
  obtain ⟨c, hc, -⟩ := load_ok hinv
  cases hst : s.loop_beginnings with
  | nil => exact absurd hst (stack_ne_nil_of_loop_end hv hinv ht)
  | cons p rest =>
    have hstack := hinv.stack
    rw [hst] at hstack
    exact ⟨p, rest, c, rfl, hstack.top_matching ht, hc, step_loop_end ht hst hc⟩

theorem step_loop_close_witness :
    validate_program countdown = .ok () ∧ Reachable countdown [] countdownAtClose ∧
    countdown[countdownAtClose.i]? = some LOOP_END ∧
    ∃ p rest c, countdownAtClose.loop_beginnings = p :: rest ∧
      Matching countdown p countdownAtClose.i ∧ load countdownAtClose = .ok c ∧
      step countdown countdownAtClose =
        .ok { countdownAtClose with
          loop_beginnings := rest, i := if c ≠ 0 then p else countdownAtClose.i + 1 } :=
  ⟨by decide, ⟨3, rfl⟩, by decide,
    step_loop_close countdown [] countdownAtClose (by decide) ⟨3, rfl⟩ (by decide)⟩


/-! ## Execution engine: the tape on arbitrary programs -/

theorem memInv_init (input : List Nat) : MemInv (init input) where
  mem_length := List.length_replicate _ _
  index_nonneg := le_refl (0 : Int)
  index_lt := by
    show (0 : Int) < (PROGRAM_MEM_SIZE : Int)
    simp [PROGRAM_MEM_SIZE]
  cells_lt := fun c hc => by rw [init_memory_zero input c hc]; decide

theorem MemInv.of_inv {tokens : List Token} {s : State} (h : Inv tokens s)
    (hc : ∀ c ∈ s.memory, c < 256) : MemInv s :=
  ⟨h.mem_length, h.index_nonneg, h.index_lt, hc⟩

theorem MemInv.toNat_lt {s : State} (h : MemInv s) :
    s.memory_index.toNat < s.memory.length := by
  rw [h.mem_length, Int.toNat_lt h.index_nonneg]; exact h.index_lt

theorem MemInv.load_succeeds {s : State} (h : MemInv s) :
    ∃ c, load s = .ok c ∧ s.memory[s.memory_index.toNat]? = some c ∧ c < 256 := by
  have hlt := h.toNat_lt
  refine ⟨s.memory[s.memory_index.toNat], ?_, List.getElem?_eq_getElem hlt,
    h.cells_lt _ (List.getElem_mem _)⟩
  simp [load, h.index_nonneg, List.getElem?_eq_getElem hlt]

theorem MemInv.store_succeeds {s : State} (h : MemInv s) (v : Nat) :
    store s v = .ok { s with memory := s.memory.set s.memory_index.toNat v } := by
  simp [store, h.index_nonneg, List.getElem?_eq_getElem h.toNat_lt]

theorem MemInv.set {s : State} (h : MemInv s) {v : Nat} (hv : v < 256) (i : Nat)
    (l : List Nat) (inp out : List Nat) :
    MemInv { i := i, loop_beginnings := l, memory := s.memory.set s.memory_index.toNat v,
             memory_index := s.memory_index, input := inp, output := out } where
  mem_length := by simpa using h.mem_length
  index_nonneg := h.index_nonneg
  index_lt := h.index_lt
  cells_lt := fun c hc => by
    rcases List.mem_or_eq_of_mem_set hc with hc | rfl
    · exact h.cells_lt c hc
    · exact hv

theorem MemInv.same_tape {s s' : State} (h : MemInv s) (hm : s'.memory = s.memory)
    (hi : s'.memory_index = s.memory_index) : MemInv s' :=
  ⟨by rw [hm]; exact h.mem_length, by rw [hi]; exact h.index_nonneg,
    by rw [hi]; exact h.index_lt, by rw [hm]; exact h.cells_lt⟩

theorem MemInv.move {s s' : State} (h : MemInv s) (hm : s'.memory = s.memory) (v : Int)
    (hi : s'.memory_index = wrap_val v 0 PROGRAM_MEM_SIZE) : MemInv s' := by
  have hN : (0 : Int) < (PROGRAM_MEM_SIZE : Int) := by simp [PROGRAM_MEM_SIZE]
  exact ⟨by rw [hm]; exact h.mem_length, by rw [hi]; exact (wrap_val_range _ hN).1,
    by rw [hi]; exact (wrap_val_range _ hN).2, by rw [hm]; exact h.cells_lt⟩

theorem skip_loop_error {tokens : List Token} {n i : Nat} {d : Int} {e : Fault}
    (h : skip_loop tokens n d i = .error e) : e = .tokenIndex := by
  induction n generalizing d i with
  | zero => simp [skip_loop] at h
  | succ n ih =>
    rw [skip_loop] at h
    split_ifs at h with hcond
    · cases ht : tokens[i + 1]? with
      | none => rw [ht] at h; cases h; rfl
      | some t => rw [ht] at h; exact ih h

/-- An iteration started with the data pointer inside the tape ends with the
data pointer inside the tape, or in a fault that is no tape access. -/
theorem step_memInv (tokens : List Token) {s : State} (h : MemInv s) :
    (∀ s', step tokens s = .ok s' → MemInv s') ∧ step tokens s ≠ .error .memoryIndex := by
  obtain ⟨c, hc, -, hc256⟩ := h.load_succeeds
  cases ht : tokens[s.i]? with
  | none => simp [step, ht]
  | some t =>
    cases t with
    | PTR_RIGHT =>
      rw [step_ptr_right ht]
      exact ⟨fun s' hs' => by cases hs'; exact h.move rfl _ rfl, fun h => by cases h⟩
    | PTR_LEFT =>
      rw [step_ptr_left ht]
      exact ⟨fun s' hs' => by cases hs'; exact h.move rfl _ rfl, fun h => by cases h⟩
    | INCR =>
      have : step tokens s = .ok { s with
          memory := s.memory.set s.memory_index.toNat ((c + 1) % 256), i := s.i + 1 } := by
        simp [step, ht, hc, h.store_succeeds, bind, Except.bind, pure, Except.pure]
      rw [this]
      exact ⟨fun s' hs' => by cases hs'; exact h.set (Nat.mod_lt _ (by decide)) _ _ _ _,
        fun h => by cases h⟩
    | DECR =>
      have : step tokens s = .ok { s with
          memory := s.memory.set s.memory_index.toNat ((c + 255) % 256), i := s.i + 1 } := by
        simp [step, ht, hc, h.store_succeeds, bind, Except.bind, pure, Except.pure]
      rw [this]
      exact ⟨fun s' hs' => by cases hs'; exact h.set (Nat.mod_lt _ (by decide)) _ _ _ _,
        fun h => by cases h⟩
    | OUTP =>
      rw [step_outp ht hc]
      exact ⟨fun s' hs' => by cases hs'; exact h.same_tape rfl rfl, fun h => by cases h⟩
    | INP =>
      cases hin : s.input with
      | nil =>
        rw [step_inp_nil ht hc hin]
        exact ⟨fun s' hs' => by cases hs'; exact h.same_tape rfl rfl, fun h => by cases h⟩
      | cons b rest =>
        have : step tokens s = .ok { s with
            memory := s.memory.set s.memory_index.toNat (b % 256), input := rest,
            i := s.i + 1 } := by
          simp [step, ht, hc, hin, h.store_succeeds, bind, Except.bind, pure, Except.pure]
        rw [this]
        exact ⟨fun s' hs' => by cases hs'; exact h.set (Nat.mod_lt _ (by decide)) _ _ _ _,
          fun h => by cases h⟩
    | LOOP_BEG =>
      by_cases h0 : c = 0
      · subst h0
        cases hsk : skip_loop tokens (tokens.length - s.i) 1 s.i with
        | error e =>
          have : step tokens s = .error e := by
            simp [step, ht, hc, hsk, bind, Except.bind]
          rw [this, skip_loop_error hsk]
          exact ⟨fun s' hs' => (by cases hs'), fun h => by cases h⟩
        | ok j =>
          have : step tokens s = .ok { s with i := j + 1 } := by
            simp [step, ht, hc, hsk, bind, Except.bind, pure, Except.pure]
          rw [this]
          exact ⟨fun s' hs' => by cases hs'; exact h.same_tape rfl rfl, fun h => by cases h⟩
      · rw [step_loop_beg_nonzero ht hc h0]
        exact ⟨fun s' hs' => by cases hs'; exact h.same_tape rfl rfl, fun h => by cases h⟩
    | LOOP_END =>
      cases hst : s.loop_beginnings with
      | nil =>
        have : step tokens s = .error .emptyStack := by simp [step, ht, hst]
        rw [this]
        exact ⟨fun s' hs' => (by cases hs'), fun h => by cases h⟩
      | cons p rest =>
        rw [step_loop_end ht hst hc]
        exact ⟨fun s' hs' => by cases hs'; exact h.same_tape rfl rfl, fun h => by cases h⟩

theorem run_memInv (tokens : List Token) (n : Nat) :
    ∀ s, MemInv s →
      (∀ s', run tokens n s = .ok s' → MemInv s') ∧ run tokens n s ≠ .error .memoryIndex := by
  induction n with
  | zero =>
    intro s hs
    exact ⟨fun s' h => by cases h; exact hs, fun h => by cases h⟩
  | succ n ih =>
    intro s hs
    by_cases hi : s.i < tokens.length
    · cases hstep : step tokens s with
      | error e =>
        have : run tokens (n + 1) s = .error e := by simp [run, hi, hstep]
        rw [this]
        refine ⟨fun s' h => (by cases h), fun h => ?_⟩
        cases h
        exact (step_memInv tokens hs).2 hstep
      | ok s1 =>
        rw [run_succ_of_step n hi hstep]
        exact ih s1 ((step_memInv tokens hs).1 s1 hstep)
    · rw [run_of_halted _ hi]
      exact ⟨fun s' h => by cases h; exact hs, fun h => by cases h⟩

/-- C13: on every instruction sequence, validated or not, for every input
and every number of iterations, the engine makes no tape access outside the
tape, and in every state it reaches the data pointer is at least `0` and
below `30000`, the length of the tape, so that the current cell can be
read. -/
theorem interpret_program_pointer_in_tape (tokens : List Token) (input : List Nat)
    (n : Nat) :
    interpret_program tokens input n ≠ .error .memoryIndex ∧
    ∀ s, interpret_program tokens input n = .ok s →
      0 ≤ s.memory_index ∧ s.memory_index < 30000 ∧ s.memory.length = 30000 ∧
        ∃ c, load s = .ok c := by
  obtain ⟨hok, herr⟩ := run_memInv tokens n (init input) (memInv_init input)
  refine ⟨herr, fun s hs => ?_⟩
  have hm := hok s hs
  obtain ⟨c, hc, -⟩ := hm.load_succeeds
  exact ⟨hm.index_nonneg, hm.index_lt, hm.mem_length, c, hc⟩

/-- C12: with the data pointer `p` inside the tape of length `30000`,
`wrap_val` of `p + 1` and of `p - 1` are `(p + 1) mod 30000` and
`(p - 1) mod 30000`, and these are the pointer after a `MoveRight` and after
a `MoveLeft`; a `MoveLeft` from `0` gives `29999` and a `MoveRight` from
`29999` gives `0`. -/
theorem step_pointer_wraps (tokens : List Token) (s : State)
    (h0 : 0 ≤ s.memory_index) (h1 : s.memory_index < 30000) :
    wrap_val (s.memory_index + 1) 0 PROGRAM_MEM_SIZE = (s.memory_index + 1) % 30000 ∧
    wrap_val (s.memory_index - 1) 0 PROGRAM_MEM_SIZE = (s.memory_index - 1) % 30000 ∧
    (tokens[s.i]? = some PTR_RIGHT → step tokens s =
      .ok { s with memory_index := (s.memory_index + 1) % 30000, i := s.i + 1 }) ∧
    (tokens[s.i]? = some PTR_LEFT → step tokens s =
      .ok { s with memory_index := (s.memory_index - 1) % 30000, i := s.i + 1 }) ∧
    wrap_val (0 - 1) 0 PROGRAM_MEM_SIZE = 29999 ∧
    wrap_val (29999 + 1) 0 PROGRAM_MEM_SIZE = 0 := by
  have hr : wrap_val (s.memory_index + 1) 0 PROGRAM_MEM_SIZE
      = (s.memory_index + 1) % 30000 := by
    have hN : ((PROGRAM_MEM_SIZE : Nat) : Int) = 30000 := rfl
    unfold wrap_val
    simp only [sub_zero, zero_add, hN]
    rw [Int.tmod_eq_emod (by omega) (by norm_num)]
    rw [if_neg (by omega)]
  have hl : wrap_val (s.memory_index - 1) 0 PROGRAM_MEM_SIZE
      = (s.memory_index - 1) % 30000 := by
    have hN : ((PROGRAM_MEM_SIZE : Nat) : Int) = 30000 := rfl
    unfold wrap_val
    simp only [sub_zero, zero_add, hN]
    rcases eq_or_lt_of_le h0 with hz | hpos
    · rw [← hz]; decide
    · rw [Int.tmod_eq_emod (by omega) (by norm_num)]
      rw [if_neg (by omega)]
  refine ⟨hr, hl, fun ht => ?_, fun ht => ?_, by decide, by decide⟩
  · rw [step_ptr_right ht, hr]
  · rw [step_ptr_left ht, hl]

theorem step_pointer_wraps_witness :
    0 ≤ (init []).memory_index ∧ (init []).memory_index < 30000 ∧
    (wrap_val ((init []).memory_index + 1) 0 PROGRAM_MEM_SIZE
        = ((init []).memory_index + 1) % 30000 ∧
      wrap_val ((init []).memory_index - 1) 0 PROGRAM_MEM_SIZE
        = ((init []).memory_index - 1) % 30000 ∧
      ([PTR_LEFT][(init []).i]? = some PTR_RIGHT → step [PTR_LEFT] (init []) =
        .ok { init [] with
          memory_index := ((init []).memory_index + 1) % 30000, i := (init []).i + 1 }) ∧
      ([PTR_LEFT][(init []).i]? = some PTR_LEFT → step [PTR_LEFT] (init []) =
        .ok { init [] with
          memory_index := ((init []).memory_index - 1) % 30000, i := (init []).i + 1 }) ∧
      wrap_val (0 - 1) 0 PROGRAM_MEM_SIZE = 29999 ∧
      wrap_val (29999 + 1) 0 PROGRAM_MEM_SIZE = 0) :=
  ⟨by decide, by decide, step_pointer_wraps [PTR_LEFT] (init []) (by decide) (by decide)⟩

/-- C15: in a state whose data pointer is inside the tape and whose cursor is
on an `Input`, one iteration with input left stores the first byte of the
input in the current cell and removes it from the input, and one iteration
with no input left changes no cell; in both cases the other cells, the data
pointer, the stack and the output stay as they are and the cursor advances
by one. -/
theorem step_input (tokens : List Token) (s : State) (h : MemInv s)
    (ht : tokens[s.i]? = some INP) :
    (s.input = [] → step tokens s = .ok { s with i := s.i + 1 }) ∧
    (∀ b rest, s.input = b :: rest →
      step tokens s = .ok { s with
        memory := s.memory.set s.memory_index.toNat (b % 256), input := rest,
        i := s.i + 1 } ∧
      (s.memory.set s.memory_index.toNat (b % 256))[s.memory_index.toNat]? = some (b % 256) ∧
      (b < 256 → b % 256 = b) ∧
      ∀ k, k ≠ s.memory_index.toNat →
        (s.memory.set s.memory_index.toNat (b % 256))[k]? = s.memory[k]?) := by
  obtain ⟨c, hc, -⟩ := h.load_succeeds
  refine ⟨fun hin => step_inp_nil ht hc hin, fun b rest hin => ⟨?_, ?_, Nat.mod_eq_of_lt, ?_⟩⟩
  · simp [step, ht, hc, hin, h.store_succeeds, bind, Except.bind, pure, Except.pure]
  · simp [List.getElem?_set, h.toNat_lt]
  · intro k hk
    simp [List.getElem?_set, Ne.symm hk]

theorem step_input_witness :
    MemInv (init [65]) ∧ [INP][(init [65]).i]? = some INP ∧
    (((init [65]).input = [] → step [INP] (init [65]) =
        .ok { init [65] with i := (init [65]).i + 1 }) ∧
      (∀ b rest, (init [65]).input = b :: rest →
        step [INP] (init [65]) = .ok { init [65] with
          memory := (init [65]).memory.set (init [65]).memory_index.toNat (b % 256),
          input := rest, i := (init [65]).i + 1 } ∧
        ((init [65]).memory.set (init [65]).memory_index.toNat (b % 256))[
          (init [65]).memory_index.toNat]? = some (b % 256) ∧
        (b < 256 → b % 256 = b) ∧
        ∀ k, k ≠ (init [65]).memory_index.toNat →
          ((init [65]).memory.set (init [65]).memory_index.toNat (b % 256))[k]?
            = (init [65]).memory[k]?)) :=
  ⟨memInv_init [65], by decide, step_input [INP] (init [65]) (memInv_init [65]) (by decide)⟩

/-- C16: the empty instruction sequence passes `validate_program`, and
`interpret_program` on it makes no iteration whatever the bound: it ends in
the initial state, with nothing printed, the input untouched and every cell
zero. -/
theorem interpret_program_nil (input : List Nat) (n : Nat) :
    validate_program [] = .ok () ∧
    interpret_program [] input n = .ok (init input) ∧
    Halted [] (init input) ∧
    visited [] n (init input) = [] ∧
    (init input).output = [] ∧ (init input).input = input ∧
    ∀ c ∈ (init input).memory, c = 0 := by
  refine ⟨by decide, run_of_halted n (Nat.not_lt_zero _), Nat.not_lt_zero _, ?_, rfl, rfl,
    init_memory_zero input⟩
  cases n <;> simp [visited]

/-! ## Execution engine: runs and the iterations they make -/

theorem run_add {tokens : List Token} (a b : Nat) :
    ∀ {s s' : State}, run tokens a s = .ok s' → run tokens (a + b) s = run tokens b s' := by
  induction a with
  | zero =>
    intro s s' h
    cases h
    rw [Nat.zero_add]
  | succ a ih =>
    intro s s' h
    by_cases hi : s.i < tokens.length
    · cases hstep : step tokens s with
      | error e => simp [run, hi, hstep] at h
      | ok s1 =>
        rw [run_succ_of_step a hi hstep] at h
        rw [Nat.add_right_comm, run_succ_of_step _ hi hstep]
        exact ih h
    · rw [run_of_halted _ hi] at h
      cases h
      rw [run_of_halted _ hi, run_of_halted _ hi]

theorem visited_of_halted {tokens : List Token} {s : State} (n : Nat)
    (h : ¬ s.i < tokens.length) : visited tokens n s = [] := by
  cases n <;> simp [visited, h]

theorem visited_succ_of_step {tokens : List Token} {s s' : State} (n : Nat)
    (hi : s.i < tokens.length) (h : step tokens s = .ok s') :
    visited tokens (n + 1) s = s :: visited tokens n s' := by
  simp [visited, hi, h]

theorem visited_add {tokens : List Token} (a b : Nat) :
    ∀ {s s' : State}, run tokens a s = .ok s' →
      visited tokens (a + b) s = visited tokens a s ++ visited tokens b s' := by
  induction a with
  | zero =>
    intro s s' h
    cases h
    rw [Nat.zero_add]
    rfl
  | succ a ih =>
    intro s s' h
    by_cases hi : s.i < tokens.length
    · cases hstep : step tokens s with
      | error e => simp [run, hi, hstep] at h
      | ok s1 =>
        rw [run_succ_of_step a hi hstep] at h
        rw [Nat.add_right_comm, visited_succ_of_step _ hi hstep,
          visited_succ_of_step _ hi hstep, ih h]
        rfl
    · rw [run_of_halted _ hi] at h
      cases h
      rw [visited_of_halted _ hi, visited_of_halted _ hi, visited_of_halted _ hi]
      rfl

theorem executions_zero (tokens : List Token) (t : Token) (s : State) :
    executions tokens t 0 s = 0 := rfl

theorem pushCount_zero (tokens : List Token) (s : State) : pushCount tokens 0 s = 0 := rfl

theorem executions_of_halted {tokens : List Token} {s : State} (t : Token) (n : Nat)
    (h : ¬ s.i < tokens.length) : executions tokens t n s = 0 := by
  simp [executions, visited_of_halted n h]

theorem pushCount_of_halted {tokens : List Token} {s : State} (n : Nat)
    (h : ¬ s.i < tokens.length) : pushCount tokens n s = 0 := by
  simp [pushCount, visited_of_halted n h]

theorem executions_succ {tokens : List Token} {s s' : State} (t : Token) (n : Nat)
    (hi : s.i < tokens.length) (h : step tokens s = .ok s') :
    executions tokens t (n + 1) s =
      (if tokens[s.i]? = some t then 1 else 0) + executions tokens t n s' := by
  unfold executions
  rw [visited_succ_of_step n hi h, List.filter_cons]
  split_ifs <;> simp_all
  omega

theorem pushesAt_of_step {tokens : List Token} {s s' : State}
    (h : step tokens s = .ok s') :
    pushesAt tokens s = true ↔
      s'.loop_beginnings.length = s.loop_beginnings.length + 1 := by
  simp [pushesAt, h]

theorem pushCount_succ {tokens : List Token} {s s' : State} (n : Nat)
    (hi : s.i < tokens.length) (h : step tokens s = .ok s') :
    pushCount tokens (n + 1) s =
      (if pushesAt tokens s = true then 1 else 0) + pushCount tokens n s' := by
  unfold pushCount
  rw [visited_succ_of_step n hi h, List.filter_cons]
  split_ifs <;> simp_all
  omega

theorem executions_add {tokens : List Token} (t : Token) (a b : Nat) {s s' : State}
    (h : run tokens a s = .ok s') :
    executions tokens t (a + b) s = executions tokens t a s + executions tokens t b s' := by
  unfold executions
  rw [visited_add a b h, List.filter_append, List.length_append]

theorem pushCount_add {tokens : List Token} (a b : Nat) {s s' : State}
    (h : run tokens a s = .ok s') :
    pushCount tokens (a + b) s = pushCount tokens a s + pushCount tokens b s' := by
  unfold pushCount
  rw [visited_add a b h, List.filter_append, List.length_append]

theorem run_one {tokens : List Token} {s s' : State} (hi : s.i < tokens.length)
    (h : step tokens s = .ok s') : run tokens 1 s = .ok s' := by
  rw [run_succ_of_step 0 hi h]; rfl

/-! ## Execution engine: the current cell -/

theorem MemInv.load_eq {s : State} (h : MemInv s) {c : Nat} :
    load s = .ok c ↔ s.memory[s.memory_index.toNat]? = some c := by
  obtain ⟨c', hc', hget, -⟩ := h.load_succeeds
  rw [hc', hget]
  constructor
  · intro h; cases h; rfl
  · intro h; cases h; rfl

theorem MemInv.load_set {s s' : State} (h : MemInv s) {v : Nat}
    (hm : s'.memory = s.memory.set s.memory_index.toNat v)
    (hi : s'.memory_index = s.memory_index) : load s' = .ok v := by
  have hlt := h.toNat_lt
  simp [load, hm, hi, h.index_nonneg, List.getElem?_set, hlt]

theorem load_congr {s s' : State} (hm : s'.memory = s.memory)
    (hi : s'.memory_index = s.memory_index) : load s' = load s := by
  simp [load, hm, hi]

theorem MemInv.step_on_incr {tokens : List Token} {s : State} {c : Nat} (h : MemInv s)
    (ht : tokens[s.i]? = some INCR) (hc : load s = .ok c) :
    step tokens s = .ok { s with
      memory := s.memory.set s.memory_index.toNat ((c + 1) % 256), i := s.i + 1 } := by
  simp [step, ht, hc, h.store_succeeds, bind, Except.bind, pure, Except.pure]

theorem MemInv.step_on_decr {tokens : List Token} {s : State} {c : Nat} (h : MemInv s)
    (ht : tokens[s.i]? = some DECR) (hc : load s = .ok c) :
    step tokens s = .ok { s with
      memory := s.memory.set s.memory_index.toNat ((c + 255) % 256), i := s.i + 1 } := by
  simp [step, ht, hc, h.store_succeeds, bind, Except.bind, pure, Except.pure]

theorem SameFrame.refl (s : State) : SameFrame s s := ⟨rfl, rfl, rfl, rfl⟩

theorem SameFrame.trans {a b c : State} (h1 : SameFrame a b) (h2 : SameFrame b c) :
    SameFrame a c :=
  ⟨h2.1.trans h1.1, h2.2.1.trans h1.2.1, h2.2.2.1.trans h1.2.2.1, h2.2.2.2.trans h1.2.2.2⟩

/-! ## Execution engine: blocks of increments and the loop `[-]` -/

/-- A block of `m` `Increment` instructions adds `m` to the current cell,
modulo `256`, in `m` iterations, none of which is a `Decrement` or a push. -/
theorem run_incr_block {tokens : List Token} (m : Nat) :
    ∀ {s : State} {c : Nat}, MemInv s → load s = .ok c →
      (∀ k, k < m → tokens[s.i + k]? = some INCR) →
      ∃ s', run tokens m s = .ok s' ∧ MemInv s' ∧ load s' = .ok ((c + m) % 256) ∧
        s'.i = s.i + m ∧ SameFrame s s' ∧
        executions tokens DECR m s = 0 ∧ pushCount tokens m s = 0 := by
  induction m with
  | zero =>
    intro s c hs hc _
    obtain ⟨c', hc', -, hlt⟩ := hs.load_succeeds
    rw [hc] at hc'
    cases hc'
    exact ⟨s, rfl, hs, by rw [Nat.add_zero, Nat.mod_eq_of_lt hlt]; exact hc, rfl,
      SameFrame.refl s, rfl, rfl⟩
  | succ m ih =>
    intro s c hs hc hk
    have ht : tokens[s.i]? = some INCR := by simpa using hk 0 (Nat.succ_pos m)
    have hi := lt_length_of_getElem? ht
    have hstep := hs.step_on_incr ht hc
    have hs1 := hs.set (show (c + 1) % 256 < 256 from Nat.mod_lt _ (by decide)) (s.i + 1)
      s.loop_beginnings s.input s.output
    have hc1 : load ({ s with
        memory := s.memory.set s.memory_index.toNat ((c + 1) % 256), i := s.i + 1 } : State)
        = .ok ((c + 1) % 256) := hs.load_set rfl rfl
    obtain ⟨s', hrun, hs', hload, hcur, hframe, hex, hpush⟩ := ih hs1 hc1 (fun k hkm => by
      have := hk (k + 1) (by omega)
      rwa [show s.i + (k + 1) = s.i + 1 + k by omega] at this)
    refine ⟨s', ?_, hs', ?_, ?_, ?_, ?_, ?_⟩
    · rw [run_succ_of_step m hi hstep]; exact hrun
    · rw [hload]; congr 1; omega
    · rw [hcur]; show s.i + 1 + m = s.i + (m + 1); omega
    · exact ⟨hframe.1, hframe.2.1, hframe.2.2.1, hframe.2.2.2⟩
    · rw [executions_succ DECR m hi hstep, hex, ht]; simp
    · rw [pushCount_succ m hi hstep, hpush]; simp [pushesAt, hstep]

/-- One round of the loop `[-]` entered with a cell that is not zero: the
`LoopOpen` pushes, the `Decrement` takes one from the cell and the
`LoopClose` pops and goes back to the `LoopOpen` unless the cell is zero. -/
theorem run_decr_round {tokens : List Token} {p : Nat} (h0 : tokens[p]? = some LOOP_BEG)
    (h1 : tokens[p + 1]? = some DECR) (h2 : tokens[p + 2]? = some LOOP_END)
    {s : State} {k : Nat} (hs : MemInv s) (hp : s.i = p) (hc : load s = .ok (k + 1)) :
    ∃ s', run tokens 3 s = .ok s' ∧ MemInv s' ∧ load s' = .ok k ∧
      s'.i = (if k ≠ 0 then p else p + 3) ∧ SameFrame s s' ∧
      executions tokens DECR 3 s = 1 ∧ pushCount tokens 3 s = 1 := by
  subst hp
  obtain ⟨c', hc', -, hlt⟩ := hs.load_succeeds
  rw [hc] at hc'
  cases hc'
  have hk : (k + 1 + 255) % 256 = k := by omega
  -- the three states
  have hi0 := lt_length_of_getElem? h0
  have hi1 := lt_length_of_getElem? h1
  have hi2 := lt_length_of_getElem? h2
  have e1 := step_loop_beg_nonzero h0 hc (Nat.succ_ne_zero k)
  generalize hs1 : ({ s with
    loop_beginnings := s.i :: s.loop_beginnings, i := s.i + 1 } : State) = s1 at e1
  have hm1 : MemInv s1 := by subst hs1; exact hs.same_tape rfl rfl
  have hc1 : load s1 = .ok (k + 1) := by subst hs1; rw [← hc]; exact load_congr rfl rfl
  have ht1 : tokens[s1.i]? = some DECR := by subst hs1; exact h1
  have e2 := hm1.step_on_decr ht1 hc1
  rw [hk] at e2
  generalize hs2 : ({ s1 with
    memory := s1.memory.set s1.memory_index.toNat k, i := s1.i + 1 } : State) = s2 at e2
  have hm2 : MemInv s2 := by
    subst hs2; exact hm1.set (by omega) _ _ _ _
  have hc2 : load s2 = .ok k := by subst hs2; exact hm1.load_set rfl rfl
  have ht2 : tokens[s2.i]? = some LOOP_END := by subst hs2; subst hs1; exact h2
  have hst2 : s2.loop_beginnings = s.i :: s.loop_beginnings := by subst hs2; subst hs1; rfl
  have e3 := step_loop_end ht2 hst2 hc2
  generalize hs3 : ({ s2 with
    loop_beginnings := s.loop_beginnings, i := if k ≠ 0 then s.i else s2.i + 1 } : State)
    = s3 at e3
  have hi1' : s1.i < tokens.length := by subst hs1; exact hi1
  have hi2' : s2.i < tokens.length := by subst hs2; subst hs1; exact hi2
  refine ⟨s3, ?_, ?_, ?_, ?_, ?_, ?_, ?_⟩
  · rw [run_succ_of_step 2 hi0 e1, run_succ_of_step 1 hi1' e2, run_succ_of_step 0 hi2' e3]
    rfl
  · subst hs3; exact hm2.same_tape rfl rfl
  · subst hs3; rw [← hc2]; exact load_congr rfl rfl
  · subst hs3; subst hs2; subst hs1
    show (if k ≠ 0 then s.i else s.i + 1 + 1 + 1) = if k ≠ 0 then s.i else s.i + 3
    rfl
  · subst hs3; subst hs2; subst hs1; exact ⟨rfl, rfl, rfl, rfl⟩
  · rw [executions_succ DECR 2 hi0 e1, executions_succ DECR 1 hi1' e2,
      executions_succ DECR 0 hi2' e3, executions_zero, h0, ht1, ht2]
    simp
  · rw [pushCount_succ 2 hi0 e1, pushCount_succ 1 hi1' e2, pushCount_succ 0 hi2' e3,
      pushCount_zero]
    have hl1 : s1.loop_beginnings = s.i :: s.loop_beginnings := by subst hs1; rfl
    have hl3 : s3.loop_beginnings = s.loop_beginnings := by subst hs3; rfl
    have p0 : pushesAt tokens s = true := (pushesAt_of_step e1).2 (by rw [hl1]; rfl)
    have p1 : pushesAt tokens s1 = false := by
      rw [Bool.eq_false_iff]
      intro h
      have := (pushesAt_of_step e2).1 h
      rw [hst2, hl1] at this
      omega
    have p2 : pushesAt tokens s2 = false := by
      rw [Bool.eq_false_iff]
      intro h
      have := (pushesAt_of_step e3).1 h
      rw [hst2, hl3, List.length_cons] at this
      omega
    simp [p0, p1, p2]

/-- The loop `[-]` entered with the value `k + 1` in the current cell ends
after `3 * (k + 1)` iterations just behind its `LoopClose` with the cell at
zero, having executed the `Decrement` and pushed `k + 1` times each. -/
theorem run_decr_loop {tokens : List Token} {p : Nat} (h0 : tokens[p]? = some LOOP_BEG)
    (h1 : tokens[p + 1]? = some DECR) (h2 : tokens[p + 2]? = some LOOP_END) (k : Nat) :
    ∀ {s : State}, MemInv s → s.i = p → load s = .ok (k + 1) →
      ∃ s', run tokens (3 * (k + 1)) s = .ok s' ∧ MemInv s' ∧ load s' = .ok 0 ∧
        s'.i = p + 3 ∧ SameFrame s s' ∧
        executions tokens DECR (3 * (k + 1)) s = k + 1 ∧
        pushCount tokens (3 * (k + 1)) s = k + 1 := by
  induction k with
  | zero =>
    intro s hs hp hc
    obtain ⟨s', hrun, hs', hload, hcur, hframe, hex, hpush⟩ := run_decr_round h0 h1 h2 hs hp hc
    exact ⟨s', hrun, hs', hload, by simpa using hcur, hframe, hex, hpush⟩
  | succ k ih =>
    intro s hs hp hc
    obtain ⟨s3, hrun, hs3, hload, hcur, hframe, hex, hpush⟩ := run_decr_round h0 h1 h2 hs hp hc
    rw [if_pos (Nat.succ_ne_zero k)] at hcur
    obtain ⟨s', hrun', hs', hload', hcur', hframe', hex', hpush'⟩ := ih hs3 hcur hload
    have hfuel : 3 * (k + 1 + 1) = 3 + 3 * (k + 1) := by ring
    refine ⟨s', ?_, hs', hload', hcur', hframe.trans hframe', ?_, ?_⟩
    · rw [hfuel, run_add 3 _ hrun]; exact hrun'
    · rw [hfuel, executions_add DECR 3 _ hrun, hex, hex']; ring
    · rw [hfuel, pushCount_add 3 _ hrun, hpush, hpush']; ring

/-- After a run has left the loop of the engine, a larger bound on the
iterations changes neither the final state nor the counts. -/
theorem stable_of_halted {tokens : List Token} {a : Nat} {s s' : State}
    (hrun : run tokens a s = .ok s') (hh : Halted tokens s') (t : Token) (m : Nat)
    (hm : a ≤ m) :
    run tokens m s = .ok s' ∧ executions tokens t m s = executions tokens t a s ∧
      pushCount tokens m s = pushCount tokens a s := by
  obtain ⟨b, rfl⟩ : ∃ b, m = a + b := ⟨m - a, by omega⟩
  refine ⟨?_, ?_, ?_⟩
  · rw [run_add a b hrun]; exact run_of_halted b hh
  · rw [executions_add t a b hrun, executions_of_halted t b hh, Nat.add_zero]
  · rw [pushCount_add a b hrun, pushCount_of_halted b hh, Nat.add_zero]

theorem countdownFrom_getElem?_lt {n k : Nat} (h : k < n) :
    (countdownFrom n)[k]? = some INCR := by
  simp [countdownFrom, List.getElem?_append_left, h]

theorem countdownFrom_getElem?_add (n k : Nat) :
    (countdownFrom n)[n + k]? = [LOOP_BEG, DECR, LOOP_END][k]? := by
  simp [countdownFrom, List.getElem?_append_right]

theorem countdownFrom_length (n : Nat) : (countdownFrom n).length = n + 3 := by
  simp [countdownFrom]

theorem countdownFrom_matching (n : Nat) : Matching (countdownFrom n) n (n + 2) := by
  have h1 : (countdownFrom n)[n + 1]? = some DECR := countdownFrom_getElem?_add n 1
  refine ⟨by omega, countdownFrom_getElem?_add n 0, countdownFrom_getElem?_add n 2, ?_⟩
  rw [show n + 2 = n + 1 + 1 by omega, slice_succ h1]
  exact Balanced.single (by decide) (by decide)

/-- The program `countdownFrom n` started at its first instruction with the
value `c` in the current cell: it ends with the cell at zero, and the
`Decrement` of the loop is executed, and the stack pushed, `(c + n) mod 256`
times. -/
theorem countdownFrom_run_from (n : Nat) {s : State} {c : Nat} (hs : MemInv s)
    (hi : s.i = 0) (hc : load s = .ok c) :
    ∃ s', run (countdownFrom n) (n + (if (c + n) % 256 = 0 then 1 else 3 * ((c + n) % 256))) s
        = .ok s' ∧
      Halted (countdownFrom n) s' ∧ MemInv s' ∧ load s' = .ok 0 ∧ SameFrame s s' ∧
      executions (countdownFrom n) DECR
        (n + (if (c + n) % 256 = 0 then 1 else 3 * ((c + n) % 256))) s = (c + n) % 256 ∧
      pushCount (countdownFrom n)
        (n + (if (c + n) % 256 = 0 then 1 else 3 * ((c + n) % 256))) s = (c + n) % 256 := by
  obtain ⟨s1, hrun1, hs1, hload1, hcur1, hframe1, hex1, hpush1⟩ :=
    @run_incr_block (countdownFrom n) n s c hs hc (fun k hk => by
      rw [hi, Nat.zero_add]; exact countdownFrom_getElem?_lt hk)
  rw [hi, Nat.zero_add] at hcur1
  have h0 : (countdownFrom n)[n]? = some LOOP_BEG := countdownFrom_getElem?_add n 0
  have h1 : (countdownFrom n)[n + 1]? = some DECR := countdownFrom_getElem?_add n 1
  have h2 : (countdownFrom n)[n + 2]? = some LOOP_END := countdownFrom_getElem?_add n 2
  rcases Nat.eq_zero_or_pos ((c + n) % 256) with hz | hpos
  · rw [hz] at hload1 ⊢
    rw [if_pos rfl]
    have ht : (countdownFrom n)[s1.i]? = some LOOP_BEG := by rw [hcur1]; exact h0
    have hm : Matching (countdownFrom n) s1.i (n + 2) := by
      rw [hcur1]; exact countdownFrom_matching n
    have hstep := step_loop_beg_zero ht hload1 hm
    have hi1 : s1.i < (countdownFrom n).length := lt_length_of_getElem? ht
    have hhalt : ¬ (n + 2 + 1) < (countdownFrom n).length := by
      rw [countdownFrom_length]; omega
    refine ⟨{ s1 with i := n + 2 + 1 }, ?_, hhalt, hs1.same_tape rfl rfl, ?_, ?_, ?_, ?_⟩
    · rw [run_add n 1 hrun1]; exact run_one hi1 hstep
    · rw [← hload1]; exact load_congr rfl rfl
    · exact hframe1.trans ⟨rfl, rfl, rfl, rfl⟩
    · rw [executions_add DECR n 1 hrun1, hex1, executions_succ DECR 0 hi1 hstep,
        executions_zero, ht]
      simp
    · rw [pushCount_add n 1 hrun1, hpush1, pushCount_succ 0 hi1 hstep, pushCount_zero]
      simp [pushesAt, hstep]
  · obtain ⟨k, hk⟩ : ∃ k, (c + n) % 256 = k + 1 := ⟨(c + n) % 256 - 1, by omega⟩
    rw [hk] at hload1 ⊢
    rw [if_neg (Nat.succ_ne_zero k)]
    obtain ⟨s', hrun', hs', hload', hcur', hframe', hex', hpush'⟩ :=
      run_decr_loop h0 h1 h2 k hs1 hcur1 hload1
    refine ⟨s', ?_, ?_, hs', hload', hframe1.trans hframe', ?_, ?_⟩
    · rw [run_add n _ hrun1]; exact hrun'
    · show ¬ s'.i < (countdownFrom n).length
      rw [hcur', countdownFrom_length]; omega
    · rw [executions_add DECR n _ hrun1, hex1, hex', Nat.zero_add]
    · rw [pushCount_add n _ hrun1, hpush1, hpush', Nat.zero_add]

theorem load_init (input : List Nat) : load (init input) = .ok 0 := by
  rw [(memInv_init input).load_eq]
  show (List.replicate PROGRAM_MEM_SIZE 0)[0]? = some 0
  rw [List.getElem?_replicate, if_pos (by decide)]

theorem memInv_initWithCell {v : Nat} (hv : v < 256) (input : List Nat) :
    MemInv (initWithCell v input) :=
  (memInv_init input).set hv 0 [] input []

theorem load_initWithCell (v : Nat) (input : List Nat) :
    load (initWithCell v input) = .ok v :=
  (memInv_init input).load_set rfl rfl

theorem cell_zero_of_load {s s' : State} {c : Nat} (hs' : MemInv s') (hf : SameFrame s s')
    (h0 : s.memory_index = 0) (hc : load s' = .ok c) : s'.memory[0]? = some c := by
  have := hs'.load_eq.1 hc
  rwa [hf.2.1, h0] at this

/-- The program `+[-]` started with `3` in the current cell leaves the loop
of the engine after `13` iterations with the cell at zero; four of the
iterations execute the `Decrement`. -/
theorem countdown_run_from_three (input : List Nat) :
    ∃ s', run countdown 13 (initWithCell 3 input) = .ok s' ∧ Halted countdown s' ∧
      s'.memory[0]? = some 0 ∧
      executions countdown DECR 13 (initWithCell 3 input) = 4 := by
  obtain ⟨s', hrun, hh, hs', hload, hf, hex, -⟩ :=
    countdownFrom_run_from 1 (memInv_initWithCell (show 3 < 256 by decide) input) rfl
      (load_initWithCell 3 input)
  exact ⟨s', hrun, hh, cell_zero_of_load hs' hf rfl hload, hex⟩

/-- C11, as the code has it: the program `+[-]` run from a state with `3` in
the current cell ends with that cell at zero, and the `Decrement` of the
loop body is executed exactly `4` times, once more than the start value
because the `Increment` in front of the loop raises the cell to `4`. -/
theorem countdown_from_three (input : List Nat) :
    ∃ s', Halted countdown s' ∧ s'.memory[0]? = some 0 ∧
      ∀ m, 13 ≤ m →
        run countdown m (initWithCell 3 input) = .ok s' ∧
        executions countdown DECR m (initWithCell 3 input) = 4 := by
  obtain ⟨s', hrun, hh, hcell, hex⟩ := countdown_run_from_three input
  refine ⟨s', hh, hcell, fun m hm => ?_⟩
  obtain ⟨h1, h2, -⟩ := stable_of_halted hrun hh DECR m hm
  exact ⟨h1, h2.trans hex⟩

/-- C11 fails as stated: started with `3` in the current cell on empty input,
the program `+[-]` ends after `13` iterations, of which `4` and not `3`
execute the `Decrement`. -/
theorem countdown_from_three_not_three_decrements :
    ∃ s', run countdown 13 (initWithCell 3 []) = .ok s' ∧ Halted countdown s' ∧
      executions countdown DECR 13 (initWithCell 3 []) = 4 ∧
      executions countdown DECR 13 (initWithCell 3 []) ≠ 3 := by
  obtain ⟨s', hrun, hh, -, hex⟩ := countdown_run_from_three []
  exact ⟨s', hrun, hh, hex, by rw [hex]; decide⟩

/-- C19: for `n` at most `255`, the program of `n` `Increment` instructions
followed by `[-]`, run by `interpret_program` on a fresh tape, leaves the
loop of the engine with cell `0` at zero, and however large the bound on the
iterations, the `Decrement` of the loop body is executed exactly `n` times
and exactly `n` iterations push onto the loop-entry stack, that is, leave
`loop_beginnings` one entry longer than they found it. -/
theorem countdownFrom_terminates (n : Nat) (hn : n ≤ 255) (input : List Nat) :
    ∃ fuel s', Halted (countdownFrom n) s' ∧ s'.memory[0]? = some 0 ∧
      ∀ m, fuel ≤ m →
        interpret_program (countdownFrom n) input m = .ok s' ∧
        executions (countdownFrom n) DECR m (init input) = n ∧
        pushCount (countdownFrom n) m (init input) = n := by
  obtain ⟨s', hrun, hh, hs', hload, hf, hex, hpush⟩ :=
    countdownFrom_run_from n (memInv_init input) rfl (load_init input)
  have hmod : (0 + n) % 256 = n := by omega
  rw [hmod] at hrun hex hpush
  refine ⟨n + if n = 0 then 1 else 3 * n, s', hh, cell_zero_of_load hs' hf rfl hload,
    fun m hm => ?_⟩
  obtain ⟨h1, h2, h3⟩ := stable_of_halted hrun hh DECR m hm
  exact ⟨h1, h2.trans hex, h3.trans hpush⟩

theorem countdownFrom_terminates_witness :
    3 ≤ 255 ∧
    ∃ fuel s', Halted (countdownFrom 3) s' ∧ s'.memory[0]? = some 0 ∧
      ∀ m, fuel ≤ m →
        interpret_program (countdownFrom 3) [] m = .ok s' ∧
        executions (countdownFrom 3) DECR m (init []) = 3 ∧
        pushCount (countdownFrom 3) m (init []) = 3 :=
  ⟨by decide, countdownFrom_terminates 3 (by decide) []⟩

/-! ## Execution engine: cell arithmetic -/

theorem set_eq_self_of_getElem? {l : List Nat} {i c : Nat} (h : l[i]? = some c) :
    l.set i c = l := by
  apply List.ext_getElem?
  intro k
  rw [List.getElem?_set]
  split_ifs with h1 h2
  · subst h1; exact h.symm
  · subst h1; rw [List.getElem?_eq_none (by omega)]
  · rfl

theorem run_increments (n : Nat) (input : List Nat) :
    ∃ s, run (List.replicate n INCR) n (init input) = .ok s ∧
      s.memory[0]? = some (n % 256) := by
  obtain ⟨s', hrun, hs', hload, -, hf, -, -⟩ :=
    @run_incr_block (List.replicate n INCR) n (init input) 0 (memInv_init input)
      (load_init input)
      (fun k hk => by
        show (List.replicate n INCR)[0 + k]? = some INCR
        rw [Nat.zero_add, List.getElem?_replicate, if_pos hk])
  rw [Nat.zero_add] at hload
  exact ⟨s', hrun, cell_zero_of_load hs' hf rfl hload⟩

/-- C14: cells are bytes that wrap around.  `n` `Increment` instructions on
a fresh tape leave `n mod 256` in cell `0` (`255` after `255` of them, `0`
after `256`); every cell of every state the engine reaches is below `256`;
a `Decrement` on a cell holding `0` leaves `255`; an `Increment` followed
by a `Decrement` restores the tape; a `LoopOpen` pushes and enters the body
exactly when the value of the current cell is not `0`, and a `LoopClose`
goes back to the popped position exactly when that value is not `0`. -/
theorem cell_wraps :
    (∀ (n : Nat) (input : List Nat), ∃ s,
      run (List.replicate n INCR) n (init input) = .ok s ∧ s.memory[0]? = some (n % 256)) ∧
    (∃ s, run (List.replicate 255 INCR) 255 (init []) = .ok s ∧ s.memory[0]? = some 255) ∧
    (∃ s, run (List.replicate 256 INCR) 256 (init []) = .ok s ∧ s.memory[0]? = some 0) ∧
    (∀ (tokens : List Token) (input : List Nat) (n : Nat) (s : State),
      interpret_program tokens input n = .ok s → ∀ c ∈ s.memory, c < 256) ∧
    (∀ (tokens : List Token) (s : State), MemInv s → tokens[s.i]? = some DECR →
      load s = .ok 0 → ∃ s', step tokens s = .ok s' ∧ load s' = .ok 255) ∧
    (∀ (tokens : List Token) (s : State) (c : Nat), MemInv s → load s = .ok c →
      tokens[s.i]? = some INCR → tokens[s.i + 1]? = some DECR →
      ∃ s', run tokens 2 s = .ok s' ∧ load s' = .ok c ∧ s'.memory = s.memory) ∧
    (∀ (tokens : List Token) (s : State) (c : Nat), load s = .ok c →
      tokens[s.i]? = some LOOP_BEG →
      (step tokens s = .ok { s with
          loop_beginnings := s.i :: s.loop_beginnings, i := s.i + 1 } ↔ c ≠ 0)) ∧
    (∀ (tokens : List Token) (s : State) (c p : Nat) (rest : List Nat), load s = .ok c →
      tokens[s.i]? = some LOOP_END → s.loop_beginnings = p :: rest →
      step tokens s = .ok { s with
        loop_beginnings := rest, i := if c ≠ 0 then p else s.i + 1 }) := by
  refine ⟨run_increments, run_increments 255 [], run_increments 256 [], ?_, ?_, ?_, ?_, ?_⟩
  · intro tokens input n s hs
    exact ((run_memInv tokens n (init input) (memInv_init input)).1 s hs).cells_lt
  · intro tokens s hs ht hc
    exact ⟨_, hs.step_on_decr ht hc, hs.load_set rfl rfl⟩
  · intro tokens s c hs hc ht ht'
    obtain ⟨c', hc', hget, hlt⟩ := hs.load_succeeds
    rw [hc] at hc'
    cases hc'
    have e1 := hs.step_on_incr ht hc
    have hs1 := hs.set (show (c + 1) % 256 < 256 from Nat.mod_lt _ (by decide)) (s.i + 1)
      s.loop_beginnings s.input s.output
    have hc1 : load ({ s with
        memory := s.memory.set s.memory_index.toNat ((c + 1) % 256), i := s.i + 1 } : State)
        = .ok ((c + 1) % 256) := hs.load_set rfl rfl
    have e2 := hs1.step_on_decr ht' hc1
    have hback : ((c + 1) % 256 + 255) % 256 = c := by omega
    have hi := lt_length_of_getElem? ht
    have hi' := lt_length_of_getElem? ht'
    rw [hback] at e2
    refine ⟨{ s with
      memory := (s.memory.set s.memory_index.toNat ((c + 1) % 256)).set s.memory_index.toNat c,
      i := s.i + 1 + 1 }, ?_, ?_, ?_⟩
    · rw [run_succ_of_step 1 hi e1, run_succ_of_step 0 hi' e2]; rfl
    · exact hs1.load_set rfl rfl
    · show (s.memory.set s.memory_index.toNat ((c + 1) % 256)).set s.memory_index.toNat c
        = s.memory
      rw [List.set_set, set_eq_self_of_getElem? hget]
  · intro tokens s c hc ht
    constructor
    · intro hstep h0
      subst h0
      cases hsk : skip_loop tokens (tokens.length - s.i) 1 s.i with
      | error e =>
        have : step tokens s = .error e := by
          simp [step, ht, hc, hsk, bind, Except.bind]
        rw [this] at hstep
        cases hstep
      | ok j =>
        have : step tokens s = .ok { s with i := j + 1 } := by
          simp [step, ht, hc, hsk, bind, Except.bind, pure, Except.pure]
        rw [this] at hstep
        have hl := congrArg State.loop_beginnings (Except.ok.inj hstep)
        exact List.cons_ne_self _ _ hl.symm
    · exact step_loop_beg_nonzero ht hc
  · intro tokens s c p rest hc ht hst
    exact step_loop_end ht hst hc

/-! ## The loop-entry stack lists the enclosing loops -/

/-- A balanced stretch of tokens has no `LoopOpen` whose rest of the stretch
is balanced as well. -/
theorem balanced_slice_open_absurd {tokens : List Token} {a p i : Nat}
    (hb : Balanced (slice tokens a i)) (hap : a ≤ p) (hpi : p < i) (hi : i ≤ tokens.length)
    (hp : tokens[p]? = some LOOP_BEG) (hb' : Balanced (slice tokens (p + 1) i)) : False := by
  have hc := hb.counter_eq_zero
  have hn := hb.nonNegFrom (le_refl (0 : Int))
  rw [← slice_append_slice tokens hap (show p ≤ i by omega) hi,
    ← slice_append_slice tokens (show p ≤ p + 1 by omega) (show p + 1 ≤ i by omega) hi,
    slice_succ hp] at hc hn
  have hA := ((nonNegFrom_append _ _ _).1 hn).1.end_nonneg
  rw [counter_append, counter_append, hb'.counter_eq_zero] at hc
  simp [counter, delta] at hc
  omega

theorem StackInv.unique {tokens : List Token} {i : Nat} {st st' : List Nat}
    (h : StackInv tokens i st) (h' : StackInv tokens i st') (hi : i ≤ tokens.length) :
    st = st' := by
  induction st generalizing i st' with
  | nil =>
    cases st' with
    | nil => rfl
    | cons p' st' =>
      exact (balanced_slice_open_absurd h (Nat.zero_le _) h'.1 hi h'.2.1 h'.2.2.1).elim
  | cons p st ih =>
    cases st' with
    | nil =>
      exact (balanced_slice_open_absurd h' (Nat.zero_le _) h.1 hi h.2.1 h.2.2.1).elim
    | cons p' st' =>
      obtain ⟨hpi, hp, hb, hst⟩ := h
      obtain ⟨hpi', hp', hb', hst'⟩ := h'
      have hpp : p = p' := by
        rcases Nat.lt_trichotomy p p' with hlt | heq | hgt
        · exact (balanced_slice_open_absurd hb (by omega) hpi' hi hp' hb').elim
        · exact heq
        · exact (balanced_slice_open_absurd hb' (by omega) hpi hi hp hb).elim
      subst hpp
      rw [ih hst hst' (by omega)]

theorem StackInv.pairwise {tokens : List Token} {i : Nat} {st : List Nat}
    (h : StackInv tokens i st) : st.Pairwise (fun a b => b < a) := by
  induction st generalizing i with
  | nil => exact List.Pairwise.nil
  | cons p st ih =>
    exact List.Pairwise.cons (fun q hq => h.2.2.2.lt_of_mem hq) (ih h.2.2.2)

/-- On a validated program the stack of the invariant holds exactly the
`LoopOpen`s before the cursor whose matching `LoopClose` is not before it. -/
theorem StackInv.mem_iff {tokens : List Token} {i : Nat} {st : List Nat}
    (hv : validate_program tokens = .ok ()) (h : StackInv tokens i st)
    (hi : i ≤ tokens.length) (p : Nat) :
    p ∈ st ↔ tokens[p]? = some LOOP_BEG ∧ p < i ∧ ∃ j, Matching tokens p j ∧ i ≤ j := by
  constructor
  · intro hp
    obtain ⟨j, hm⟩ := exists_matching_close hv (h.open_of_mem hp)
    refine ⟨h.open_of_mem hp, h.lt_of_mem hp, j, hm, ?_⟩
    by_contra hj
    exact not_matching_of_nonNeg (h.nonNeg_of_mem hi hp) hm (by omega) hi
  · rintro ⟨hp, hpi, j, hm, hij⟩
    obtain ⟨st', hst', -, hopen⟩ := exists_stack (nonNegFrom_of_validate hv).1 i hi
    rw [h.unique hst' hi]
    rcases hopen p hpi hp with hmem | ⟨j', hj', hm'⟩
    · exact hmem
    · have := hm.close_unique hm'
      omega

/-- C18: on a validated program, in every reachable state with the cursor at
`i`, the loop-entry stack read from bottom to top is strictly increasing (so
without duplicates, the outermost loop first) and holds exactly the
positions `p < i` of a `LoopOpen` whose matching `LoopClose` is at a
position `j ≥ i`; the stack is empty when no loop encloses the cursor, and
so when the engine has terminated. -/
theorem stack_lists_enclosing_loops (tokens : List Token) (input : List Nat) (s : State)
    (hv : validate_program tokens = .ok ()) (hr : Reachable tokens input s) :
    s.loop_beginnings.reverse.Pairwise (fun a b => a < b) ∧
    s.loop_beginnings.Nodup ∧
    (∀ p, p ∈ s.loop_beginnings ↔
      tokens[p]? = some LOOP_BEG ∧ p < s.i ∧ ∃ j, Matching tokens p j ∧ s.i ≤ j) ∧
    ((¬ ∃ p j, Matching tokens p j ∧ p < s.i ∧ s.i ≤ j) → s.loop_beginnings = []) ∧
    (Halted tokens s → s.loop_beginnings = []) := by
  have hinv := inv_of_reachable hv hr
  have hmem := hinv.stack.mem_iff hv hinv.cursor_le
  have hout : (¬ ∃ p j, Matching tokens p j ∧ p < s.i ∧ s.i ≤ j) → s.loop_beginnings = [] := by
    intro hno
    cases hst : s.loop_beginnings with
    | nil => rfl
    | cons p st =>
      obtain ⟨-, hpi, j, hm, hij⟩ := (hmem p).1 (by rw [hst]; exact List.mem_cons_self _ _)
      exact absurd ⟨p, j, hm, hpi, hij⟩ hno
  refine ⟨List.pairwise_reverse.2 hinv.stack.pairwise, hinv.stack.nodup, hmem, hout,
    fun hh => hout ?_⟩
  rintro ⟨p, j, hm, -, hij⟩
  have := lt_length_of_getElem? hm.2.2.1
  exact hh (by omega)

theorem stack_lists_enclosing_loops_witness :
    validate_program countdown = .ok () ∧ Reachable countdown [] countdownAtClose ∧
    (countdownAtClose.loop_beginnings.reverse.Pairwise (fun a b => a < b) ∧
      countdownAtClose.loop_beginnings.Nodup ∧
      (∀ p, p ∈ countdownAtClose.loop_beginnings ↔
        countdown[p]? = some LOOP_BEG ∧ p < countdownAtClose.i ∧
          ∃ j, Matching countdown p j ∧ countdownAtClose.i ≤ j) ∧
      ((¬ ∃ p j, Matching countdown p j ∧ p < countdownAtClose.i ∧ countdownAtClose.i ≤ j) →
        countdownAtClose.loop_beginnings = []) ∧
      (Halted countdown countdownAtClose → countdownAtClose.loop_beginnings = [])) :=
  ⟨by decide, ⟨3, rfl⟩,
    stack_lists_enclosing_loops countdown [] countdownAtClose (by decide) ⟨3, rfl⟩⟩

/-! ## The jump table of a validated program -/

theorem jump_pairs_loop_beg (rest : List Token) (i : Nat) (st : List Nat) :
    jump_pairs (LOOP_BEG :: rest) i st = jump_pairs rest (i + 1) (i :: st) := by
  simp [jump_pairs]

theorem jump_pairs_loop_end (rest : List Token) (i p : Nat) (st : List Nat) :
    jump_pairs (LOOP_END :: rest) i (p :: st) = (p, i) :: jump_pairs rest (i + 1) st := by
  simp [jump_pairs]

theorem jump_pairs_plain {t : Token} (h1 : t ≠ LOOP_BEG) (h2 : t ≠ LOOP_END)
    (rest : List Token) (i : Nat) (st : List Nat) :
    jump_pairs (t :: rest) i st = jump_pairs rest (i + 1) st := by
  cases t <;> simp [jump_pairs] at h1 h2 ⊢

theorem getElem?_of_drop_eq_cons {tokens rest : List Token} {i : Nat} {t : Token}
    (h : tokens.drop i = t :: rest) : tokens[i]? = some t ∧ tokens.drop (i + 1) = rest := by
  constructor
  · have := List.getElem?_drop tokens i 0
    rw [h, Nat.add_zero] at this
    simpa using this.symm
  · have := congrArg (List.drop 1) h
    rw [List.drop_drop] at this
    simpa [Nat.add_comm] using this

/-- Read from position `i` with the stack of the loops open there, the pass
finds exactly the matching pairs whose `LoopClose` is at `i` or later. -/
theorem mem_jump_pairs {tokens : List Token} (hn : NonNegFrom 0 tokens) :
    ∀ (rest : List Token) (i : Nat) (st : List Nat), tokens.drop i = rest →
      i ≤ tokens.length → StackInv tokens i st →
      (st.length : Int) = counter (tokens.take i) →
      ∀ p j, (p, j) ∈ jump_pairs rest i st ↔ Matching tokens p j ∧ i ≤ j := by
  intro rest
  induction rest with
  | nil =>
    intro i st hdrop hi _ _ p j
    have hlen : tokens.length ≤ i := List.drop_eq_nil_iff.1 hdrop
    simp only [jump_pairs, List.not_mem_nil, false_iff, not_and]
    intro hm
    have := lt_length_of_getElem? hm.2.2.1
    omega
  | cons t rest ih =>
    intro i st hdrop hi hst hlen p j
    obtain ⟨ht, hdrop'⟩ := getElem?_of_drop_eq_cons hdrop
    have hil := lt_length_of_getElem? ht
    have hcnt : counter (tokens.take (i + 1)) = counter (tokens.take i) + delta t := by
      rw [take_succ_of_getElem? ht, counter_append]; simp [counter]
    have hge : 0 ≤ counter (tokens.take (i + 1)) := by
      simpa using (nonNegFrom_iff 0 tokens).1 hn (i + 1)
    have hji : ∀ {q : Nat}, t ≠ LOOP_END → Matching tokens q j → i ≤ j → i + 1 ≤ j := by
      intro q hne hm hij
      rcases Nat.eq_or_lt_of_le hij with heq | hlt
      · have h3 := hm.2.2.1
        rw [← heq, ht] at h3
        exact absurd (Option.some.inj h3) hne
      · exact hlt
    by_cases h1 : t = LOOP_BEG
    · subst h1
      rw [jump_pairs_loop_beg, ih (i + 1) (i :: st) hdrop' hil (hst.push ht)
        (by rw [hcnt, ← hlen]; simp [delta])]
      exact ⟨fun h => ⟨h.1, by omega⟩, fun h => ⟨h.1, hji (by decide) h.1 h.2⟩⟩
    by_cases h2 : t = LOOP_END
    · subst h2
      cases st with
      | nil =>
        exfalso
        rw [hcnt, ← hlen] at hge
        simp [delta] at hge
      | cons q st =>
        have hq := hst.top_matching ht
        rw [jump_pairs_loop_end, List.mem_cons, ih (i + 1) st hdrop' hil (hst.pop ht)
          (by rw [hcnt, ← hlen]; simp [delta])]
        constructor
        · rintro (heq | ⟨hm, hij⟩)
          · cases heq
            exact ⟨hq, le_refl _⟩
          · exact ⟨hm, by omega⟩
        · rintro ⟨hm, hij⟩
          rcases Nat.eq_or_lt_of_le hij with heq | hlt
          · subst heq
            left
            rw [hm.open_unique hq]
          · exact Or.inr ⟨hm, hlt⟩
    · rw [jump_pairs_plain h1 h2, ih (i + 1) st hdrop' hil (hst.plain ht h1 h2)
        (by rw [hcnt, ← hlen]; cases t <;> simp_all [delta])]
      exact ⟨fun h => ⟨h.1, by omega⟩, fun h => ⟨h.1, hji h2 h.1 h.2⟩⟩

theorem mem_jump_table {tokens : List Token} (hv : validate_program tokens = .ok ())
    (p j : Nat) : (p, j) ∈ jump_table tokens ↔ Matching tokens p j := by
  have := mem_jump_pairs (nonNegFrom_of_validate hv).1 tokens 0 [] rfl (Nat.zero_le _)
    (show Balanced (slice tokens 0 0) by rw [slice_self]; exact Balanced.nil)
    (by simp [counter]) p j
  rw [jump_table, this]
  exact ⟨fun h => h.1, fun h => ⟨h, Nat.zero_le _⟩⟩

/-- The jump table of a validated program gives, for each `LoopOpen`, its
matching `LoopClose`. -/
theorem close_of_jump_table {tokens : List Token} (hv : validate_program tokens = .ok ())
    {p j : Nat} (hm : Matching tokens p j) : close_of (jump_table tokens) p = some j := by
  unfold close_of
  cases hf : (jump_table tokens).find? fun e => decide (e.1 = p) with
  | none =>
    have := List.find?_eq_none.1 hf (p, j) ((mem_jump_table hv p j).2 hm)
    simp at this
  | some e =>
    have he1 : e.1 = p := by simpa using List.find?_some hf
    have hmem := List.mem_of_find?_eq_some hf
    have hm' : Matching tokens e.1 e.2 := (mem_jump_table hv e.1 e.2).1 hmem
    rw [he1] at hm'
    simp [hm'.close_unique hm]

/-- The jump table of a validated program gives, for each `LoopClose`, its
matching `LoopOpen`. -/
theorem open_of_jump_table {tokens : List Token} (hv : validate_program tokens = .ok ())
    {p j : Nat} (hm : Matching tokens p j) : open_of (jump_table tokens) j = some p := by
  unfold open_of
  cases hf : (jump_table tokens).find? fun e => decide (e.2 = j) with
  | none =>
    have := List.find?_eq_none.1 hf (p, j) ((mem_jump_table hv p j).2 hm)
    simp at this
  | some e =>
    have he2 : e.2 = j := by simpa using List.find?_some hf
    have hmem := List.mem_of_find?_eq_some hf
    have hm' : Matching tokens e.1 e.2 := (mem_jump_table hv e.1 e.2).1 hmem
    rw [he2] at hm'
    simp [hm'.open_unique hm]

/-! ## The engine and the reference interpreter -/

theorem eq_with_stack {e r : State} (h : SameObs e r) :
    r = { e with loop_beginnings := r.loop_beginnings } := by
  obtain ⟨h1, h2, h3, h4, h5⟩ := h
  cases e
  cases r
  simp only at h1 h2 h3 h4 h5
  subst h1 h2 h3 h4 h5
  rfl

/-- An instruction that is no loop boundary does not look at the stack. -/
theorem step_with_stack {tokens : List Token} {e : State} {t : Token} (l : List Nat)
    (ht : tokens[e.i]? = some t) (h1 : t ≠ LOOP_BEG) (h2 : t ≠ LOOP_END) :
    step tokens { e with loop_beginnings := l } =
      (step tokens e).map fun s => { s with loop_beginnings := l } := by
  cases t with
  | LOOP_BEG => exact absurd rfl h1
  | LOOP_END => exact absurd rfl h2
  | PTR_RIGHT => simp [step, ht, Except.map]
  | PTR_LEFT => simp [step, ht, Except.map]
  | INCR =>
    by_cases h0 : 0 ≤ e.memory_index
    · cases hg : e.memory[e.memory_index.toNat]? <;>
        simp [step, ht, load, store, h0, hg, bind, Except.bind, pure, Except.pure, Except.map]
    · simp [step, ht, load, store, h0, bind, Except.bind, Except.map]
  | DECR =>
    by_cases h0 : 0 ≤ e.memory_index
    · cases hg : e.memory[e.memory_index.toNat]? <;>
        simp [step, ht, load, store, h0, hg, bind, Except.bind, pure, Except.pure, Except.map]
    · simp [step, ht, load, store, h0, bind, Except.bind, Except.map]
  | OUTP =>
    by_cases h0 : 0 ≤ e.memory_index
    · cases hg : e.memory[e.memory_index.toNat]? <;>
        simp [step, ht, load, store, h0, hg, bind, Except.bind, pure, Except.pure, Except.map]
    · simp [step, ht, load, store, h0, bind, Except.bind, Except.map]
  | INP =>
    by_cases h0 : 0 ≤ e.memory_index
    · cases hg : e.memory[e.memory_index.toNat]? <;> cases hin : e.input <;>
        simp [step, ht, load, store, h0, hg, hin, bind, Except.bind, pure, Except.pure,
          Except.map]
    · simp [step, ht, load, store, h0, bind, Except.bind, Except.map]

theorem ref_step_plain {tokens : List Token} {r : State} {t : Token}
    (table : List (Nat × Nat)) (ht : tokens[r.i]? = some t) (h1 : t ≠ LOOP_BEG)
    (h2 : t ≠ LOOP_END) : ref_step tokens table r = step tokens r := by
  cases t <;> simp [ref_step, ht] at h1 h2 ⊢

theorem ref_step_loop_beg_zero {tokens : List Token} {r : State} {table : List (Nat × Nat)}
    {j : Nat} (ht : tokens[r.i]? = some LOOP_BEG) (hc : load r = .ok 0)
    (hj : close_of table r.i = some j) :
    ref_step tokens table r = .ok { r with i := j + 1 } := by
  simp [ref_step, ht, hc, hj, bind, Except.bind, pure, Except.pure]

theorem ref_step_loop_beg_nonzero {tokens : List Token} {r : State}
    (table : List (Nat × Nat)) {c : Nat} (ht : tokens[r.i]? = some LOOP_BEG)
    (hc : load r = .ok c) (h0 : c ≠ 0) :
    ref_step tokens table r = .ok { r with i := r.i + 1 } := by
  simp [ref_step, ht, hc, h0, bind, Except.bind, pure, Except.pure]

theorem ref_step_loop_end_zero {tokens : List Token} {r : State}
    (table : List (Nat × Nat)) (ht : tokens[r.i]? = some LOOP_END) (hc : load r = .ok 0) :
    ref_step tokens table r = .ok { r with i := r.i + 1 } := by
  simp [ref_step, ht, hc, bind, Except.bind, pure, Except.pure]

theorem ref_step_loop_end_nonzero {tokens : List Token} {r : State}
    {table : List (Nat × Nat)} {c p : Nat} (ht : tokens[r.i]? = some LOOP_END)
    (hc : load r = .ok c) (h0 : c ≠ 0) (hp : open_of table r.i = some p) :
    ref_step tokens table r = .ok { r with i := p + 1 } := by
  simp [ref_step, ht, hc, h0, hp, bind, Except.bind, pure, Except.pure]

/-- From corresponding states, one iteration of the reference interpreter
and one iteration of the engine lead to corresponding states, or, when a
`LoopClose` jumps back, to states of which the engine's is one iteration
behind. -/
theorem sim_step {tokens : List Token} (hv : validate_program tokens = .ok ())
    {e r : State} (hc : Corr tokens e r) (hi : r.i < tokens.length) :
    ∃ r' e1, ref_step tokens (jump_table tokens) r = .ok r' ∧
      r'.loop_beginnings = r.loop_beginnings ∧ step tokens e = .ok e1 ∧
      (Corr tokens e1 r' ∨ Mid tokens e1 r') := by
  obtain ⟨hinv, hobs⟩ := hc
  have hcur := hobs.1
  have hie : e.i < tokens.length := by rw [hcur]; exact hi
  obtain ⟨t, ht⟩ : ∃ t, tokens[e.i]? = some t := ⟨tokens[e.i], List.getElem?_eq_getElem hie⟩
  have htr : tokens[r.i]? = some t := by rw [← hcur]; exact ht
  obtain ⟨c, hload, -⟩ := load_ok hinv
  have hloadr : load r = .ok c := by
    rw [← hload]; exact load_congr hobs.2.1.symm hobs.2.2.1.symm
  obtain ⟨e1, he1, hinv1⟩ := step_inv hv hinv hie
  by_cases h1 : t = LOOP_BEG
  · subst h1
    by_cases h0 : c = 0
    · subst h0
      obtain ⟨j, hm⟩ := exists_matching_close hv ht
      have := he1.symm.trans (step_loop_beg_zero ht hload hm)
      cases this
      have hj : close_of (jump_table tokens) r.i = some j := by
        rw [← hcur]; exact close_of_jump_table hv hm
      exact ⟨_, _, ref_step_loop_beg_zero htr hloadr hj, rfl, he1,
        Or.inl ⟨hinv1, rfl, hobs.2⟩⟩
    · have := he1.symm.trans (step_loop_beg_nonzero ht hload h0)
      cases this
      exact ⟨_, _, ref_step_loop_beg_nonzero _ htr hloadr h0, rfl, he1,
        Or.inl ⟨hinv1, congrArg (· + 1) hcur, hobs.2⟩⟩
  by_cases h2 : t = LOOP_END
  · subst h2
    cases hst : e.loop_beginnings with
    | nil => exact absurd hst (stack_ne_nil_of_loop_end hv hinv ht)
    | cons p rest =>
      have hstack := hinv.stack
      rw [hst] at hstack
      have hm := hstack.top_matching ht
      have := he1.symm.trans (step_loop_end ht hst hload)
      cases this
      by_cases h0 : c = 0
      · subst h0
        refine ⟨_, _, ref_step_loop_end_zero _ htr hloadr, rfl, he1, Or.inl ⟨hinv1, ?_, hobs.2⟩⟩
        show (if (0 : Nat) ≠ 0 then p else e.i + 1) = r.i + 1
        rw [if_neg (by simp), hcur]
      · have hp : open_of (jump_table tokens) r.i = some p := by
          rw [← hcur]; exact open_of_jump_table hv hm
        refine ⟨_, _, ref_step_loop_end_nonzero htr hloadr h0 hp, rfl, he1,
          Or.inr ⟨hinv1, hobs.2, ?_, ?_, c, ?_, h0⟩⟩
        · show tokens[if c ≠ 0 then p else e.i + 1]? = some LOOP_BEG
          rw [if_pos h0]; exact hm.2.1
        · show p + 1 = (if c ≠ 0 then p else e.i + 1) + 1
          rw [if_pos h0]
        · rw [← hload]; exact load_congr rfl rfl
  · have hr := eq_with_stack hobs
    have hstep : ref_step tokens (jump_table tokens) r =
        .ok { e1 with loop_beginnings := r.loop_beginnings } := by
      rw [ref_step_plain _ htr h1 h2, congrArg (step tokens) hr,
        step_with_stack _ ht h1 h2, he1]
      rfl
    exact ⟨_, e1, hstep, rfl, he1, Or.inl ⟨hinv1, rfl, rfl, rfl, rfl, rfl⟩⟩

/-- From a state one iteration behind, the next iteration of the engine, the
`LoopOpen` that pushes again, catches up with the reference interpreter. -/
theorem mid_step {tokens : List Token} {e r : State} (h : Mid tokens e r) :
    ∃ e', step tokens e = .ok e' ∧ e.i < tokens.length ∧ Corr tokens e' r := by
  obtain ⟨hinv, hdata, ht, hcur, c, hc, h0⟩ := h
  have hi := lt_length_of_getElem? ht
  refine ⟨_, step_loop_beg_nonzero ht hc h0, hi, ?_, hcur.symm, hdata⟩
  exact ⟨hinv.mem_length, hinv.index_nonneg, hinv.index_lt, hi, hinv.stack.push ht⟩

theorem ref_run_of_halted {tokens : List Token} {table : List (Nat × Nat)} {s : State}
    (n : Nat) (h : ¬ s.i < tokens.length) : ref_run tokens table n s = .ok s := by
  cases n <;> simp [ref_run, h]

theorem ref_run_succ_of_step {tokens : List Token} {table : List (Nat × Nat)}
    {s s' : State} (n : Nat) (hi : s.i < tokens.length)
    (h : ref_step tokens table s = .ok s') :
    ref_run tokens table (n + 1) s = ref_run tokens table n s' := by
  simp [ref_run, hi, h]

theorem ref_run_add {tokens : List Token} {table : List (Nat × Nat)} (a b : Nat) :
    ∀ {s s' : State}, ref_run tokens table a s = .ok s' →
      ref_run tokens table (a + b) s = ref_run tokens table b s' := by
  induction a with
  | zero =>
    intro s s' h
    cases h
    rw [Nat.zero_add]
  | succ a ih =>
    intro s s' h
    by_cases hi : s.i < tokens.length
    · cases hstep : ref_step tokens table s with
      | error e => simp [ref_run, hi, hstep] at h
      | ok s1 =>
        rw [ref_run_succ_of_step a hi hstep] at h
        rw [Nat.add_right_comm, ref_run_succ_of_step _ hi hstep]
        exact ih h
    · rw [ref_run_of_halted _ hi] at h
      cases h
      rw [ref_run_of_halted _ hi, ref_run_of_halted _ hi]

theorem ref_run_one {tokens : List Token} {table : List (Nat × Nat)} {s s' : State}
    (hi : s.i < tokens.length) (h : ref_step tokens table s = .ok s') :
    ref_run tokens table 1 s = .ok s' := by
  rw [ref_run_succ_of_step 0 hi h]; rfl

theorem corr_init (tokens : List Token) (input : List Nat) :
    Corr tokens (init input) (init input) :=
  ⟨inv_init tokens input, rfl, rfl, rfl, rfl, rfl⟩

/-- When the engine after `m` iterations corresponds to the reference
interpreter after `n` iterations, the engine after one or two more
iterations corresponds to the reference interpreter after `n + 1`; an
iteration of the engine in between leaves the data of the latter. -/
theorem sim_next {tokens : List Token} (hv : validate_program tokens = .ok ())
    {s0 : State} {n m : Nat} {e r : State} (he : run tokens m s0 = .ok e)
    (hr : ref_run tokens (jump_table tokens) n s0 = .ok r) (hc : Corr tokens e r)
    (hst : r.loop_beginnings = []) :
    ∃ m' e' r', m < m' ∧ m' ≤ m + 2 ∧ run tokens m' s0 = .ok e' ∧
      ref_run tokens (jump_table tokens) (n + 1) s0 = .ok r' ∧ Corr tokens e' r' ∧
      r'.loop_beginnings = [] ∧
      ∀ k, m < k → k < m' → ∃ e1, run tokens k s0 = .ok e1 ∧ SameData e1 r' := by
  by_cases hi : r.i < tokens.length
  · obtain ⟨r', e1, hrs, hst', hes, hor⟩ := sim_step hv hc hi
    have hie : e.i < tokens.length := by rw [hc.2.1]; exact hi
    have hr' : ref_run tokens (jump_table tokens) (n + 1) s0 = .ok r' := by
      rw [ref_run_add n 1 hr]; exact ref_run_one hi hrs
    have he1 : run tokens (m + 1) s0 = .ok e1 := by
      rw [run_add m 1 he]; exact run_one hie hes
    rcases hor with hcorr | hmid
    · exact ⟨m + 1, e1, r', by omega, by omega, he1, hr', hcorr, hst'.trans hst,
        fun k h1 h2 => by omega⟩
    · obtain ⟨e2, hes2, hi1, hcorr⟩ := mid_step hmid
      refine ⟨m + 2, e2, r', by omega, le_refl _, ?_, hr', hcorr, hst'.trans hst,
        fun k h1 h2 => ?_⟩
      · rw [show m + 2 = m + 1 + 1 by omega, run_add (m + 1) 1 he1]
        exact run_one hi1 hes2
      · have hk : k = m + 1 := by omega
        subst hk
        exact ⟨e1, he1, hmid.2.1⟩
  · have hie : ¬ e.i < tokens.length := by rw [hc.2.1]; exact hi
    refine ⟨m + 1, e, r, by omega, by omega, ?_, ?_, hc, hst, fun k h1 h2 => by omega⟩
    · rw [run_add m 1 he]; exact run_of_halted 1 hie
    · rw [ref_run_add n 1 hr]; exact ref_run_of_halted 1 hi

/-- Every state of the engine has the data of a state of the reference
interpreter reached in no more iterations, and the cursor too unless the
engine is one iteration behind. -/
theorem engine_covered {tokens : List Token} (hv : validate_program tokens = .ok ())
    (input : List Nat) (m : Nat) :
    ∃ n e r, n ≤ m ∧ run tokens m (init input) = .ok e ∧
      ref_run tokens (jump_table tokens) n (init input) = .ok r ∧
      (Corr tokens e r ∨ Mid tokens e r) := by
  induction m with
  | zero => exact ⟨0, _, _, le_refl _, rfl, rfl, Or.inl (corr_init tokens input)⟩
  | succ m ih =>
    obtain ⟨n, e, r, hnm, he, hr, hor⟩ := ih
    rcases hor with hc | hmid
    · by_cases hi : r.i < tokens.length
      · obtain ⟨r', e1, hrs, -, hes, hor'⟩ := sim_step hv hc hi
        have hie : e.i < tokens.length := by rw [hc.2.1]; exact hi
        refine ⟨n + 1, e1, r', by omega, ?_, ?_, hor'⟩
        · rw [run_add m 1 he]; exact run_one hie hes
        · rw [ref_run_add n 1 hr]; exact ref_run_one hi hrs
      · have hie : ¬ e.i < tokens.length := by rw [hc.2.1]; exact hi
        refine ⟨n, e, r, by omega, ?_, hr, Or.inl hc⟩
        rw [run_add m 1 he]; exact run_of_halted 1 hie
    · obtain ⟨e', hes, hi, hc⟩ := mid_step hmid
      refine ⟨n, e', r, by omega, ?_, hr, Or.inl hc⟩
      rw [run_add m 1 he]; exact run_one hi hes

/-- The iteration counts of the engine that correspond to the iteration
counts of the reference interpreter: `f n` iterations of the engine against
`n` of the reference interpreter, one or two more for each further one. -/
theorem exists_schedule {tokens : List Token} (hv : validate_program tokens = .ok ())
    (input : List Nat) :
    ∃ f : Nat → Nat, f 0 = 0 ∧ (∀ n, f n < f (n + 1) ∧ f (n + 1) ≤ f n + 2) ∧
      (∀ n, ∃ e r, run tokens (f n) (init input) = .ok e ∧
        ref_run tokens (jump_table tokens) n (init input) = .ok r ∧ Corr tokens e r ∧
        r.loop_beginnings = []) ∧
      ∀ n k, f n < k → k < f (n + 1) →
        ∃ e1 r1, run tokens k (init input) = .ok e1 ∧
          ref_run tokens (jump_table tokens) (n + 1) (init input) = .ok r1 ∧
          SameData e1 r1 := by
  have hstep : ∀ n m,
      (∃ e r, run tokens m (init input) = .ok e ∧
        ref_run tokens (jump_table tokens) n (init input) = .ok r ∧ Corr tokens e r ∧
        r.loop_beginnings = []) →
      ∃ m', (m < m' ∧ m' ≤ m + 2 ∧
          ∀ k, m < k → k < m' → ∃ e1 r1, run tokens k (init input) = .ok e1 ∧
            ref_run tokens (jump_table tokens) (n + 1) (init input) = .ok r1 ∧
            SameData e1 r1) ∧
        ∃ e r, run tokens m' (init input) = .ok e ∧
          ref_run tokens (jump_table tokens) (n + 1) (init input) = .ok r ∧
          Corr tokens e r ∧ r.loop_beginnings = [] := by
    rintro n m ⟨e, r, he, hr, hc, hst⟩
    obtain ⟨m', e', r', h1, h2, he', hr', hc', hst', hbetween⟩ := sim_next hv he hr hc hst
    refine ⟨m', ⟨h1, h2, fun k hk1 hk2 => ?_⟩, e', r', he', hr', hc', hst'⟩
    obtain ⟨e1, hk, hd⟩ := hbetween k hk1 hk2
    exact ⟨e1, r', hk, hr', hd⟩
  let g : ∀ n, { m // ∃ e r, run tokens m (init input) = .ok e ∧
      ref_run tokens (jump_table tokens) n (init input) = .ok r ∧ Corr tokens e r ∧
      r.loop_beginnings = [] } := fun n =>
    Nat.rec ⟨0, init input, init input, rfl, rfl, corr_init tokens input, rfl⟩
      (fun n ih => ⟨Classical.choose (hstep n ih.1 ih.2),
        (Classical.choose_spec (hstep n ih.1 ih.2)).2⟩) n
  refine ⟨fun n => (g n).1, rfl, fun n => ?_, fun n => (g n).2, fun n k hk1 hk2 => ?_⟩
  · have := (Classical.choose_spec (hstep n (g n).1 (g n).2)).1
    exact ⟨this.1, this.2.1⟩
  · exact (Classical.choose_spec (hstep n (g n).1 (g n).2)).1.2.2 k hk1 hk2

/-- C17: on a validated program, for every input, the engine is
observationally equivalent to the reference interpreter that jumps by the
precomputed table and has no stack.  There are iteration counts `f n` of the
engine, growing by one or two with each `n`, such that the engine after
`f n` iterations and the reference interpreter after `n` iterations have the
same cursor, tape, data pointer, remaining input and output, and the engine
in between has the data of the reference interpreter; every state of the
engine has the tape, data pointer, input and output of a state of the
reference interpreter; and each of the two terminates when the other does,
in states that agree. -/
theorem interpret_program_refines_jump_table (tokens : List Token) (input : List Nat)
    (hv : validate_program tokens = .ok ()) :
    (∃ f : Nat → Nat, f 0 = 0 ∧ (∀ n, f n < f (n + 1) ∧ f (n + 1) ≤ f n + 2) ∧
      (∀ n, ∃ e r, interpret_program tokens input (f n) = .ok e ∧
        ref_interpret tokens input n = .ok r ∧ SameObs e r ∧ r.loop_beginnings = []) ∧
      ∀ n k, f n < k → k < f (n + 1) →
        ∃ e1 r1, interpret_program tokens input k = .ok e1 ∧
          ref_interpret tokens input (n + 1) = .ok r1 ∧ SameData e1 r1) ∧
    (∀ m, ∃ n e r, n ≤ m ∧ interpret_program tokens input m = .ok e ∧
      ref_interpret tokens input n = .ok r ∧ SameData e r) ∧
    (∀ m e, interpret_program tokens input m = .ok e → Halted tokens e →
      ∃ n r, ref_interpret tokens input n = .ok r ∧ Halted tokens r ∧ SameObs e r) ∧
    (∀ n r, ref_interpret tokens input n = .ok r → Halted tokens r →
      ∃ m e, interpret_program tokens input m = .ok e ∧ Halted tokens e ∧ SameObs e r) := by
  obtain ⟨f, hf0, hfstep, hfcorr, hfmid⟩ := exists_schedule hv input
  refine ⟨⟨f, hf0, hfstep, fun n => ?_, hfmid⟩, fun m => ?_, fun m e he hh => ?_,
    fun n r hr hh => ?_⟩
  · obtain ⟨e, r, he, hr, hc, hst⟩ := hfcorr n
    exact ⟨e, r, he, hr, hc.2, hst⟩
  · obtain ⟨n, e, r, hnm, he, hr, hor⟩ := engine_covered hv input m
    rcases hor with hc | hmid
    · exact ⟨n, e, r, hnm, he, hr, hc.2.2⟩
    · exact ⟨n, e, r, hnm, he, hr, hmid.2.1⟩
  · obtain ⟨n, e0, r, -, he0, hr, hor⟩ := engine_covered hv input m
    have : e0 = e := Except.ok.inj (he0.symm.trans he)
    subst this
    rcases hor with hc | hmid
    · exact ⟨n, r, hr, fun h => hh (by rw [hc.2.1]; exact h), hc.2⟩
    · exact absurd (lt_length_of_getElem? hmid.2.2.1) hh
  · obtain ⟨e, r0, he, hr0, hc, -⟩ := hfcorr n
    have : r0 = r := Except.ok.inj (hr0.symm.trans hr)
    subst this
    exact ⟨f n, e, he, fun h => hh (by rw [← hc.2.1]; exact h), hc.2⟩

theorem interpret_program_refines_jump_table_witness :
    validate_program countdown = .ok () ∧
    ((∃ f : Nat → Nat, f 0 = 0 ∧ (∀ n, f n < f (n + 1) ∧ f (n + 1) ≤ f n + 2) ∧
        (∀ n, ∃ e r, interpret_program countdown [] (f n) = .ok e ∧
          ref_interpret countdown [] n = .ok r ∧ SameObs e r ∧ r.loop_beginnings = []) ∧
        ∀ n k, f n < k → k < f (n + 1) →
          ∃ e1 r1, interpret_program countdown [] k = .ok e1 ∧
            ref_interpret countdown [] (n + 1) = .ok r1 ∧ SameData e1 r1) ∧
      (∀ m, ∃ n e r, n ≤ m ∧ interpret_program countdown [] m = .ok e ∧
        ref_interpret countdown [] n = .ok r ∧ SameData e r) ∧
      (∀ m e, interpret_program countdown [] m = .ok e → Halted countdown e →
        ∃ n r, ref_interpret countdown [] n = .ok r ∧ Halted countdown r ∧ SameObs e r) ∧
      (∀ n r, ref_interpret countdown [] n = .ok r → Halted countdown r →
        ∃ m e, interpret_program countdown [] m = .ok e ∧ Halted countdown e ∧
          SameObs e r)) :=
  ⟨by decide, interpret_program_refines_jump_table countdown [] (by decide)⟩

end Brainfuck
